import Mathlib

/-!
# Verification of `scripts/gbp-reviews-daily.js`

A shallow embedding of the daily Google-Business-Profile review harvesting
script, together with proofs about the claims of its specification.

Conventions of the embedding:

* Instants are modelled as `Int`, the number of milliseconds since the Unix
  epoch (luxon's `DateTime.toMillis()`).
* The Europe/Berlin timezone is modelled by its IANA transition table
  restricted to the years 2023–2026 (EU rule: DST from the last Sunday of
  March 01:00 UTC to the last Sunday of October 01:00 UTC); outside the
  covered range the offset is the standard CET offset of +1h.  All concrete
  instants used in theorems lie inside the covered range.
* JavaScript strings are modelled as `String` / `List Char`; `undefined` and
  `null` field values are modelled with `Option`.
* Network effects are modelled by oracles: a fetch feed for the retrying
  client, a page feed for the review harvester, and per-review / per-location
  result oracles for the prefill service and the harvester inside `main`.
-/

namespace GbpReviews

/-! ## Time model: Europe/Berlin (`getYesterdayRangeBerlin`) -/

/-- One civil day in milliseconds. -/
def dayMs : Int := 86400000

/-- One hour in milliseconds. -/
def hourMs : Int := 3600000

/-- UTC offset (in milliseconds) of the Europe/Berlin timezone at a given
instant, from the IANA transition table for 2023–2026.  Transitions happen at
01:00 UTC (EU rule); the new offset applies from the transition instant on.
Outside the covered range the model uses the standard offset +1h. -/
def berlinOffset (t : Int) : Int :=
  if 1792890000000 ≤ t then 3600000        -- 2026-10-25T01:00Z, to CET
  else if 1774746000000 ≤ t then 7200000   -- 2026-03-29T01:00Z, to CEST
  else if 1761440400000 ≤ t then 3600000   -- 2025-10-26T01:00Z, to CET
  else if 1743296400000 ≤ t then 7200000   -- 2025-03-30T01:00Z, to CEST
  else if 1729990800000 ≤ t then 3600000   -- 2024-10-27T01:00Z, to CET
  else if 1711846800000 ≤ t then 7200000   -- 2024-03-31T01:00Z, to CEST
  else if 1698541200000 ≤ t then 3600000   -- 2023-10-29T01:00Z, to CET
  else if 1679792400000 ≤ t then 7200000   -- 2023-03-26T01:00Z, to CEST
  else 3600000

/-- Wall-clock milliseconds in Berlin of an instant: what luxon's
`setZone("Europe/Berlin")` exposes as the local time. -/
def berlinLocalMs (t : Int) : Int := t + berlinOffset t

/-- The Berlin civil day (days since the epoch, floor) an instant falls on.
`/` on `Int` is Euclidean division, which is floor division for the positive
divisor `dayMs`. -/
def berlinLocalDay (t : Int) : Int := berlinLocalMs t / dayMs

/-- The instant of local midnight of Berlin civil day `d` (luxon's
`startOf("day")`).  EU transitions happen at 02:00/03:00 local time, so local
midnight always exists and is unambiguous; it is found by trying the standard
offset first, exactly like a timezone-aware library resolves a local time. -/
def startOfBerlinDay (d : Int) : Int :=
  if berlinOffset (d * dayMs - hourMs) = hourMs then d * dayMs - hourMs
  else d * dayMs - 2 * hourMs

/-- `getYesterdayRangeBerlin` of the script: from the current instant, the pair
`(start, end)` of the previous Berlin civil day, where `start` is local
midnight (`startOf("day")`) and `end` is local 23:59:59.999 (`endOf("day")`,
i.e. the last millisecond before the next local midnight). -/
def getYesterdayRangeBerlin (now : Int) : Int × Int :=
  let y := berlinLocalDay now - 1
  (startOfBerlinDay y, startOfBerlinDay (y + 1) - 1)

/-- The four DST ("CEST", +2h) intervals of the covered transition table. -/
def inBerlinDst (t : Int) : Prop :=
  (1679792400000 ≤ t ∧ t < 1698541200000) ∨
  (1711846800000 ≤ t ∧ t < 1729990800000) ∨
  (1743296400000 ≤ t ∧ t < 1761440400000) ∨
  (1774746000000 ≤ t ∧ t < 1792890000000)

theorem berlinOffset_of_dst (t : Int) (h : inBerlinDst t) : berlinOffset t = 7200000 := by
  unfold inBerlinDst at h
  unfold berlinOffset
  split_ifs <;> omega

theorem berlinOffset_of_std (t : Int) (h : ¬ inBerlinDst t) : berlinOffset t = 3600000 := by
  unfold inBerlinDst at h
  unfold berlinOffset
  split_ifs <;> omega

theorem inBerlinDst_shift_midnight (d : Int) (h : inBerlinDst (d * dayMs - hourMs)) :
    inBerlinDst (d * dayMs - 2 * hourMs) := by
  unfold inBerlinDst dayMs hourMs at *
  omega

/-- Case analysis for `startOfBerlinDay`: on a standard-offset midnight the
start instant is `d*dayMs - 1h`, on a DST midnight it is `d*dayMs - 2h`, and
in both cases the offset at the start instant is the offset used to build it. -/
theorem startOfBerlinDay_spec (d : Int) :
    (¬ inBerlinDst (d * dayMs - hourMs) ∧ startOfBerlinDay d = d * dayMs - hourMs ∧
      berlinOffset (startOfBerlinDay d) = hourMs) ∨
    (inBerlinDst (d * dayMs - hourMs) ∧ startOfBerlinDay d = d * dayMs - 2 * hourMs ∧
      berlinOffset (startOfBerlinDay d) = 2 * hourMs) := by
  by_cases h : inBerlinDst (d * dayMs - hourMs)
  · right
    have hoff := berlinOffset_of_dst _ h
    have hne : ¬ (berlinOffset (d * dayMs - hourMs) = hourMs) := by
      rw [hoff]
      unfold hourMs
      omega
    have hs : startOfBerlinDay d = d * dayMs - 2 * hourMs := by
      unfold startOfBerlinDay
      exact if_neg hne
    refine ⟨h, hs, ?_⟩
    rw [hs, berlinOffset_of_dst _ (inBerlinDst_shift_midnight d h)]
    unfold hourMs
    omega
  · left
    have hoff := berlinOffset_of_std _ h
    have heq : berlinOffset (d * dayMs - hourMs) = hourMs := by
      rw [hoff]
      unfold hourMs
      omega
    have hs : startOfBerlinDay d = d * dayMs - hourMs := by
      unfold startOfBerlinDay
      exact if_pos heq
    exact ⟨h, hs, by rw [hs, heq]⟩

theorem berlinLocalMs_startOfBerlinDay (d : Int) :
    berlinLocalMs (startOfBerlinDay d) = d * dayMs := by
  unfold berlinLocalMs
  rcases startOfBerlinDay_spec d with ⟨_, hs, hoff⟩ | ⟨_, hs, hoff⟩ <;> rw [hoff, hs] <;> ring

/-- No transition sits immediately before a local midnight: the offset one
millisecond before the start of a Berlin day equals the offset at the start. -/
theorem berlinOffset_pred_startOfBerlinDay (d : Int) :
    berlinOffset (startOfBerlinDay d - 1) = berlinOffset (startOfBerlinDay d) := by
  rcases startOfBerlinDay_spec d with ⟨h, hs, hoff⟩ | ⟨h, hs, hoff⟩
  · have hnd : ¬ inBerlinDst (d * dayMs - hourMs - 1) := by
      unfold inBerlinDst dayMs hourMs at *
      omega
    rw [hoff, hs, berlinOffset_of_std _ hnd]
    unfold hourMs
    omega
  · have hd : inBerlinDst (d * dayMs - 2 * hourMs - 1) := by
      unfold inBerlinDst dayMs hourMs at *
      omega
    rw [hoff, hs, berlinOffset_of_dst _ hd]
    unfold hourMs
    omega

theorem berlinLocalMs_endOfBerlinDay (d : Int) :
    berlinLocalMs (startOfBerlinDay (d + 1) - 1) = (d + 1) * dayMs - 1 := by
  unfold berlinLocalMs
  rw [berlinOffset_pred_startOfBerlinDay]
  have h := berlinLocalMs_startOfBerlinDay (d + 1)
  unfold berlinLocalMs at h
  omega

theorem berlinLocalDay_startOfBerlinDay (d : Int) :
    berlinLocalDay (startOfBerlinDay d) = d := by
  unfold berlinLocalDay
  rw [berlinLocalMs_startOfBerlinDay]
  unfold dayMs
  omega

theorem berlinLocalDay_endOfBerlinDay (d : Int) :
    berlinLocalDay (startOfBerlinDay (d + 1) - 1) = d := by
  unfold berlinLocalDay
  rw [berlinLocalMs_endOfBerlinDay]
  unfold dayMs
  omega

theorem startOfBerlinDay_form (d : Int) :
    startOfBerlinDay d = d * dayMs - hourMs ∨ startOfBerlinDay d = d * dayMs - 2 * hourMs := by
  rcases startOfBerlinDay_spec d with ⟨_, hs, _⟩ | ⟨_, hs, _⟩
  · exact Or.inl hs
  · exact Or.inr hs

/-- C1 (amended form): for every invocation instant, the resolved window
covers exactly the Berlin civil day preceding `now`: the start is the local
midnight of that day, the end is its last local millisecond, both endpoints
fall on that preceding day, and the span equals that civil day's length minus
one millisecond — `24h - 1ms` on ordinary days but `23h - 1ms` or `25h - 1ms`
on DST-transition days. -/
theorem getYesterdayRangeBerlin_spec (now : Int) :
    berlinLocalDay (getYesterdayRangeBerlin now).1 = berlinLocalDay now - 1 ∧
    berlinLocalDay (getYesterdayRangeBerlin now).2 = berlinLocalDay now - 1 ∧
    berlinLocalMs (getYesterdayRangeBerlin now).1 = (berlinLocalDay now - 1) * dayMs ∧
    berlinLocalMs (getYesterdayRangeBerlin now).2 = berlinLocalDay now * dayMs - 1 ∧
    (getYesterdayRangeBerlin now).1 ≤ (getYesterdayRangeBerlin now).2 ∧
    ((getYesterdayRangeBerlin now).2 - (getYesterdayRangeBerlin now).1 = dayMs - hourMs - 1 ∨
     (getYesterdayRangeBerlin now).2 - (getYesterdayRangeBerlin now).1 = dayMs - 1 ∨
     (getYesterdayRangeBerlin now).2 - (getYesterdayRangeBerlin now).1 = dayMs + hourMs - 1) := by
  unfold getYesterdayRangeBerlin
  have h1 := berlinLocalDay_startOfBerlinDay (berlinLocalDay now - 1)
  have h2 := berlinLocalDay_endOfBerlinDay (berlinLocalDay now - 1)
  have h3 := berlinLocalMs_startOfBerlinDay (berlinLocalDay now - 1)
  have h4 := berlinLocalMs_endOfBerlinDay (berlinLocalDay now - 1)
  have h5 := startOfBerlinDay_form (berlinLocalDay now - 1)
  have h6 := startOfBerlinDay_form (berlinLocalDay now - 1 + 1)
  simp only []
  refine ⟨h1, h2, h3, ?_, ?_, ?_⟩
  · rw [h4]
    ring
  · unfold dayMs hourMs at h5 h6
    omega
  · unfold dayMs hourMs at h5 h6 ⊢
    omega

/-- C1 counterexample: invoked at `now = 2024-04-01T12:00:00Z`, yesterday is
the Berlin spring-forward day 2024-03-31, which has only 23 hours; the window
span is `23h - 1ms = 82799999 ms`, not `24h - 1ms = 86399999 ms`, refuting the
claim that the start is always exactly 24 hours minus 1 millisecond before the
end. -/
theorem getYesterdayRangeBerlin_dst_counterexample :
    ¬ ((getYesterdayRangeBerlin 1711972800000).2 -
       (getYesterdayRangeBerlin 1711972800000).1 = 86399999) := by
  decide

/-! ## HTTP retry client (`requestWithRetry`) -/

/-- An HTTP response as `requestWithRetry` observes it: status code, status
text and the body text read on failure paths. -/
structure HttpResponse where
  status : Nat
  statusText : String
  body : String
deriving DecidableEq

/-- Outcome of a single `fetch` attempt: a network-level exception (the
`catch` path) or a response. -/
inductive FetchOutcome where
  | netError (msg : String)
  | response (res : HttpResponse)
deriving DecidableEq

/-- The transient statuses `[429, 500, 502, 503, 504]` of the script. -/
def retryableStatuses : List Nat := [429, 500, 502, 503, 504]

/-- Whether an attempt outcome sends the loop into another attempt. -/
def attemptRetries : FetchOutcome → Bool
  | .netError _ => true
  | .response r => retryableStatuses.contains r.status

/-- The error recorded in `lastErr` after a failed attempt: the network
exception itself, or `HTTP <status> <statusText>: <text>` for a retryable
status. -/
def attemptErrMsg : FetchOutcome → String
  | .netError m => m
  | .response r => "HTTP " ++ toString r.status ++ " " ++ r.statusText ++ ": " ++ r.body

/-- The `for` loop of `requestWithRetry`.  `i` is the 0-based attempt index,
`fuel` the remaining attempts (`retries - i`), `lastErr` the last recorded
error.  Returns the result (`.ok` response or thrown error), the total number
of attempts made, and the list of back-off delays slept, in order (the script
sleeps `baseBackoffMs * 2^i` after every failed attempt, including the
last). -/
def retryLoop (feed : Nat → FetchOutcome) (base : Nat) :
    Nat → Nat → Option String → Except String HttpResponse × Nat × List Nat
  | i, 0, lastErr => (.error (lastErr.getD "requestWithRetry failed"), i, [])
  | i, fuel + 1, lastErr =>
    match feed i with
    | .netError m =>
      let rest := retryLoop feed base (i + 1) fuel (some m)
      (rest.1, rest.2.1, base * 2 ^ i :: rest.2.2)
    | .response r =>
      if retryableStatuses.contains r.status then
        let rest := retryLoop feed base (i + 1) fuel (some (attemptErrMsg (.response r)))
        (rest.1, rest.2.1, base * 2 ^ i :: rest.2.2)
      else
        (.ok r, i + 1, [])

/-- `requestWithRetry(url, options, {retries = 4, baseBackoffMs = 800})`, with
the network modelled by `feed`, the outcome of the `i`-th `fetch`. -/
def requestWithRetry (feed : Nat → FetchOutcome) (retries : Nat := 4)
    (baseBackoffMs : Nat := 800) : Except String HttpResponse × Nat × List Nat :=
  retryLoop feed baseBackoffMs 0 retries none

theorem retryLoop_attempts (feed : Nat → FetchOutcome) (base : Nat) :
    ∀ fuel i lastErr, i ≤ (retryLoop feed base i fuel lastErr).2.1 ∧
      (retryLoop feed base i fuel lastErr).2.1 ≤ i + fuel := by
  intro fuel
  induction fuel with
  | zero => intro i lastErr; simp [retryLoop]
  | succ n ih =>
    intro i lastErr
    cases hf : feed i with
    | netError m =>
      have h := ih (i + 1) (some m)
      simp only [retryLoop, hf]
      omega
    | response r =>
      cases hr : retryableStatuses.contains r.status with
      | true =>
        have h := ih (i + 1) (some (attemptErrMsg (.response r)))
        simp only [retryLoop, hf, hr, if_true]
        omega
      | false =>
        simp only [retryLoop, hf, hr, Bool.false_eq_true, if_false]
        omega

theorem retryLoop_delays (feed : Nat → FetchOutcome) (base : Nat) :
    ∀ fuel i lastErr j, j < (retryLoop feed base i fuel lastErr).2.2.length →
      (retryLoop feed base i fuel lastErr).2.2.get? j = some (base * 2 ^ (i + j)) := by
  intro fuel
  induction fuel with
  | zero => intro i lastErr j h; simp [retryLoop] at h
  | succ n ih =>
    intro i lastErr j h
    cases hf : feed i with
    | netError m =>
      simp only [retryLoop, hf] at h ⊢
      cases j with
      | zero => simp
      | succ k =>
        simp only [List.get?_cons_succ]
        have hrec := ih (i + 1) (some m) k (by simpa using h)
        have hexp : i + 1 + k = i + (k + 1) := by omega
        rw [hrec, hexp]
    | response r =>
      cases hr : retryableStatuses.contains r.status with
      | true =>
        simp only [retryLoop, hf, hr, if_true] at h ⊢
        cases j with
        | zero => simp
        | succ k =>
          simp only [List.get?_cons_succ]
          have hrec := ih (i + 1) (some (attemptErrMsg (.response r))) k (by simpa using h)
          have hexp : i + 1 + k = i + (k + 1) := by omega
          rw [hrec, hexp]
      | false =>
        simp only [retryLoop, hf, hr, Bool.false_eq_true, if_false] at h
        simp at h

theorem retryLoop_ok (feed : Nat → FetchOutcome) (base : Nat) :
    ∀ fuel i lastErr r, (retryLoop feed base i fuel lastErr).1 = .ok r →
      feed ((retryLoop feed base i fuel lastErr).2.1 - 1) = .response r ∧
      attemptRetries (.response r) = false ∧
      (∀ j, i ≤ j → j + 1 < (retryLoop feed base i fuel lastErr).2.1 →
        attemptRetries (feed j) = true) := by
  intro fuel
  induction fuel with
  | zero => intro i lastErr r h; simp [retryLoop] at h
  | succ n ih =>
    intro i lastErr r h
    cases hf : feed i with
    | netError m =>
      simp only [retryLoop, hf] at h ⊢
      obtain ⟨h1, h2, h3⟩ := ih (i + 1) (some m) r h
      have hb := retryLoop_attempts feed base n (i + 1) (some m)
      refine ⟨h1, h2, ?_⟩
      intro j hij hlt
      rcases Nat.eq_or_lt_of_le hij with heq | hlt'
      · subst heq
        simp [attemptRetries, hf]
      · exact h3 j hlt' hlt
    | response r' =>
      cases hr : retryableStatuses.contains r'.status with
      | true =>
        simp only [retryLoop, hf, hr, if_true] at h ⊢
        obtain ⟨h1, h2, h3⟩ := ih (i + 1) (some (attemptErrMsg (.response r'))) r h
        refine ⟨h1, h2, ?_⟩
        intro j hij hlt
        rcases Nat.eq_or_lt_of_le hij with heq | hlt'
        · subst heq
          simp only [attemptRetries, hf]
          exact hr
        · exact h3 j hlt' hlt
      | false =>
        simp only [retryLoop, hf, hr, Bool.false_eq_true, if_false] at h ⊢
        cases h with
        | refl =>
          refine ⟨by simpa using hf, by simp only [attemptRetries]; exact hr, ?_⟩
          intro j hij hlt
          omega

theorem retryLoop_error (feed : Nat → FetchOutcome) (base : Nat) :
    ∀ fuel i lastErr e, (retryLoop feed base i fuel lastErr).1 = .error e →
      (retryLoop feed base i fuel lastErr).2.1 = i + fuel ∧
      (∀ j, i ≤ j → j < i + fuel → attemptRetries (feed j) = true) ∧
      (1 ≤ fuel → e = attemptErrMsg (feed (i + fuel - 1))) ∧
      (fuel = 0 → e = lastErr.getD "requestWithRetry failed") := by
  intro fuel
  induction fuel with
  | zero =>
    intro i lastErr e h
    simp only [retryLoop] at h
    cases h with
    | refl => exact ⟨by simp [retryLoop], by omega, by omega, fun _ => rfl⟩
  | succ n ih =>
    intro i lastErr e h
    cases hf : feed i with
    | netError m =>
      simp only [retryLoop, hf] at h ⊢
      obtain ⟨h1, h2, h3, h4⟩ := ih (i + 1) (some m) e h
      refine ⟨by omega, ?_, ?_, by omega⟩
      · intro j hij hlt
        rcases Nat.eq_or_lt_of_le hij with heq | hlt'
        · subst heq
          simp [attemptRetries, hf]
        · exact h2 j hlt' (by omega)
      · intro _
        cases n with
        | zero =>
          have := h4 rfl
          simpa [hf] using this
        | succ k =>
          have hmsg := h3 (by omega)
          have harg : i + 1 + (k + 1) - 1 = i + (k + 1 + 1) - 1 := by omega
          rw [harg] at hmsg
          exact hmsg
    | response r' =>
      cases hr : retryableStatuses.contains r'.status with
      | true =>
        simp only [retryLoop, hf, hr, if_true] at h ⊢
        obtain ⟨h1, h2, h3, h4⟩ := ih (i + 1) (some (attemptErrMsg (.response r'))) e h
        refine ⟨by omega, ?_, ?_, by omega⟩
        · intro j hij hlt
          rcases Nat.eq_or_lt_of_le hij with heq | hlt'
          · subst heq
            simp only [attemptRetries, hf]
            exact hr
          · exact h2 j hlt' (by omega)
        · intro _
          cases n with
          | zero =>
            have := h4 rfl
            simp only [Option.getD_some] at this
            rw [this]
            have hi : i + (0 + 1) - 1 = i := by omega
            rw [hi, hf]
          | succ k =>
            have hmsg := h3 (by omega)
            have harg : i + 1 + (k + 1) - 1 = i + (k + 1 + 1) - 1 := by omega
            rw [harg] at hmsg
            exact hmsg
      | false =>
        simp only [retryLoop, hf, hr, Bool.false_eq_true, if_false] at h
        simp at h

/-- C2: with its defaults (4 attempts, 800 ms base), `requestWithRetry` makes
at most 4 attempts; the `j`-th back-off delay is `800 * 2^j`; a returned
response is the outcome of the final attempt and has a status outside
`{429, 500, 502, 503, 504}` (any such status is returned immediately), while
every earlier attempt was a network failure or a retryable status (it retries
only on those); and on exhausting all attempts it throws the error of the
last attempt: its `HTTP <status> <statusText>: <text>` message, or the last
network exception. -/
theorem requestWithRetry_spec (feed : Nat → FetchOutcome) :
    (requestWithRetry feed).2.1 ≤ 4 ∧
    (∀ j, j < (requestWithRetry feed).2.2.length →
      (requestWithRetry feed).2.2.get? j = some (800 * 2 ^ j)) ∧
    (∀ r, (requestWithRetry feed).1 = .ok r →
      feed ((requestWithRetry feed).2.1 - 1) = .response r ∧
      attemptRetries (.response r) = false ∧
      (∀ j, j + 1 < (requestWithRetry feed).2.1 → attemptRetries (feed j) = true)) ∧
    (∀ e, (requestWithRetry feed).1 = .error e →
      (requestWithRetry feed).2.1 = 4 ∧
      (∀ j, j < 4 → attemptRetries (feed j) = true) ∧
      e = attemptErrMsg (feed 3)) := by
  refine ⟨(retryLoop_attempts feed 800 4 0 none).2, ?_, ?_, ?_⟩
  · intro j h
    have := retryLoop_delays feed 800 4 0 none j h
    simpa using this
  · intro r h
    obtain ⟨h1, h2, h3⟩ := retryLoop_ok feed 800 4 0 none r h
    exact ⟨h1, h2, fun j hj => h3 j (Nat.zero_le j) hj⟩
  · intro e h
    obtain ⟨h1, h2, h3, _⟩ := retryLoop_error feed 800 4 0 none e h
    refine ⟨by simpa using h1, fun j hj => h2 j (Nat.zero_le j) (by omega), ?_⟩
    simpa using h3 (by omega)

/-- A concrete fetch feed: a network failure, then a 503, then success. -/
def exampleFeed : Nat → FetchOutcome
  | 0 => .netError "connection reset"
  | 1 => .response ⟨503, "Service Unavailable", "overloaded"⟩
  | _ => .response ⟨200, "OK", "done"⟩

/-- Witness for C2 at a concrete feed: two transient failures then a success;
the client stops within the attempt bound and both early attempts were
retryable. -/
theorem requestWithRetry_spec_witness :
    (requestWithRetry exampleFeed).2.1 ≤ 4 ∧
    attemptRetries (exampleFeed 0) = true ∧
    attemptRetries (exampleFeed 1) = true := by
  refine ⟨(requestWithRetry_spec exampleFeed).1, ?_, ?_⟩
  · exact ((requestWithRetry_spec exampleFeed).2.2.1 ⟨200, "OK", "done"⟩ rfl).2.2 0 (by decide)
  · exact ((requestWithRetry_spec exampleFeed).2.2.1 ⟨200, "OK", "done"⟩ rfl).2.2 1 (by decide)

/-! ## Review harvesting (`listReviewsForLocation`) -/

/-- A review as delivered by the review feed.  `createTime` is the creation
instant in epoch milliseconds (`DateTime.fromISO(...).toMillis()`, which the
Berlin zone conversion leaves unchanged); `none` models an absent or empty
`createTime`, which the loop skips (`if (!ct) continue`). -/
structure Review where
  name : String
  createTime : Option Int
  starRating : Option String
  reviewerName : String
  comment : String
deriving DecidableEq

/-- One page of the review feed: `j.reviews || []` and
`j.nextPageToken || ""` (the empty string means "no next page"). -/
structure ReviewsPage where
  reviews : List Review
  nextPageToken : String
deriving DecidableEq

/-- `dtBerlin.toMillis() >= startBerlin.toMillis()` for an item with a present
creation timestamp; `false` when `createTime` is absent. -/
def reviewGeStart (startMs : Int) (r : Review) : Bool :=
  match r.createTime with
  | some ct => startMs ≤ ct
  | none => false

/-- Membership of an item's creation instant in `[startMs, endMs]`, the push
condition of the loop; `false` when `createTime` is absent. -/
def reviewInWindow (startMs endMs : Int) (r : Review) : Bool :=
  match r.createTime with
  | some ct => startMs ≤ ct && ct ≤ endMs
  | none => false

/-- `anyGeStart` after scanning a whole page. -/
def pageAnyGeStart (startMs : Int) (p : ReviewsPage) : Bool :=
  p.reviews.any (reviewGeStart startMs)

/-- The reviews of one page pushed to `out`, in page order. -/
def pageMatches (startMs endMs : Int) (p : ReviewsPage) : List Review :=
  p.reviews.filter (reviewInWindow startMs endMs)

/-- The value of `pagesBelowCutoff` after processing the pages `ps`, starting
from counter value `b`: reset to 0 by a page containing an item with creation
time ≥ start, incremented otherwise. -/
def belowCutoffFrom (startMs : Int) (b : Nat) (ps : List ReviewsPage) : Nat :=
  ps.foldl (fun acc p => if pageAnyGeStart startMs p then 0 else acc + 1) b

/-- The `do … while (pageToken)` loop of `listReviewsForLocation` over the
page feed `ps`, with current `pagesBelowCutoff` value `below`.  Returns the
collected in-window reviews and the number of pages fetched.  The loop stops
on an empty page, when the consecutive below-cutoff counter reaches 2, or
when no next-page token is returned. -/
def harvestLoop (startMs endMs : Int) : List ReviewsPage → Nat → List Review × Nat
  | [], _ => ([], 0)
  | p :: rest, below =>
    if p.reviews.isEmpty then ([], 1)
    else
      let matched := pageMatches startMs endMs p
      let below' := if pageAnyGeStart startMs p then 0 else below + 1
      if 2 ≤ below' then (matched, 1)
      else if p.nextPageToken = "" then (matched, 1)
      else
        let next := harvestLoop startMs endMs rest below'
        (matched ++ next.1, next.2 + 1)

/-- `listReviewsForLocation` with the network modelled by the list of pages
the feed would deliver in order: the collected reviews and the number of
pages actually fetched. -/
def listReviewsForLocation (pages : List ReviewsPage) (startMs endMs : Int) :
    List Review × Nat :=
  harvestLoop startMs endMs pages 0

theorem harvestLoop_pages_le (startMs endMs : Int) :
    ∀ ps b, (harvestLoop startMs endMs ps b).2 ≤ ps.length := by
  intro ps
  induction ps with
  | nil => intro b; simp [harvestLoop]
  | cons p rest ih =>
    intro b
    by_cases he : p.reviews.isEmpty
    · simp [harvestLoop, he]
    · by_cases hc : 2 ≤ (if pageAnyGeStart startMs p then 0 else b + 1)
      · simp [harvestLoop, he, hc]
      · by_cases ht : p.nextPageToken = ""
        · simp [harvestLoop, he, hc, ht]
        · have h := ih (if pageAnyGeStart startMs p then 0 else b + 1)
          simp only [harvestLoop, if_neg he, if_neg hc, if_neg ht, List.length_cons]
          omega

/-- One unfolding step of the harvest loop on a non-empty feed. -/
theorem harvestLoop_cons (startMs endMs : Int) (p : ReviewsPage) (rest : List ReviewsPage)
    (b : Nat) :
    harvestLoop startMs endMs (p :: rest) b =
      if p.reviews.isEmpty then ([], 1)
      else if 2 ≤ (if pageAnyGeStart startMs p then 0 else b + 1) then
        (pageMatches startMs endMs p, 1)
      else if p.nextPageToken = "" then (pageMatches startMs endMs p, 1)
      else (pageMatches startMs endMs p ++
              (harvestLoop startMs endMs rest
                (if pageAnyGeStart startMs p then 0 else b + 1)).1,
            (harvestLoop startMs endMs rest
                (if pageAnyGeStart startMs p then 0 else b + 1)).2 + 1) := rfl

theorem harvestLoop_continue (startMs endMs : Int) :
    ∀ ps b i, i + 1 < (harvestLoop startMs endMs ps b).2 →
      ∃ p, ps.get? i = some p ∧ p.reviews.isEmpty = false ∧ p.nextPageToken ≠ "" ∧
        belowCutoffFrom startMs b (ps.take (i + 1)) < 2 := by
  intro ps
  induction ps with
  | nil => intro b i h; simp [harvestLoop] at h
  | cons p rest ih =>
    intro b i h
    rw [harvestLoop_cons] at h
    by_cases he : p.reviews.isEmpty
    · rw [if_pos he] at h
      omega
    · rw [if_neg he] at h
      by_cases hc : 2 ≤ (if pageAnyGeStart startMs p then 0 else b + 1)
      · rw [if_pos hc] at h
        omega
      · rw [if_neg hc] at h
        by_cases ht : p.nextPageToken = ""
        · rw [if_pos ht] at h
          omega
        · rw [if_neg ht] at h
          cases i with
          | zero =>
            refine ⟨p, rfl, by simpa using he, ht, ?_⟩
            simp only [List.take_succ_cons, List.take_zero, belowCutoffFrom, List.foldl_cons,
              List.foldl_nil]
            omega
          | succ k =>
            obtain ⟨q, hq, h1, h2, h3⟩ :=
              ih (if pageAnyGeStart startMs p then 0 else b + 1) k (by simpa using h)
            refine ⟨q, by simpa using hq, h1, h2, ?_⟩
            simpa [belowCutoffFrom] using h3

theorem harvestLoop_stop (startMs endMs : Int) :
    ∀ ps b, (harvestLoop startMs endMs ps b).2 < ps.length →
      1 ≤ (harvestLoop startMs endMs ps b).2 ∧
      ∃ p, ps.get? ((harvestLoop startMs endMs ps b).2 - 1) = some p ∧
        (p.reviews.isEmpty = true ∨
         2 ≤ belowCutoffFrom startMs b (ps.take (harvestLoop startMs endMs ps b).2) ∨
         p.nextPageToken = "") := by
  intro ps
  induction ps with
  | nil => intro b h; simp [harvestLoop] at h
  | cons p rest ih =>
    intro b h
    rw [harvestLoop_cons] at h ⊢
    by_cases he : p.reviews.isEmpty
    · rw [if_pos he] at h ⊢
      exact ⟨by omega, p, rfl, Or.inl he⟩
    · rw [if_neg he] at h ⊢
      by_cases hc : 2 ≤ (if pageAnyGeStart startMs p then 0 else b + 1)
      · rw [if_pos hc] at h ⊢
        refine ⟨by omega, p, rfl, Or.inr (Or.inl ?_)⟩
        simp only [List.take_succ_cons, List.take_zero, belowCutoffFrom, List.foldl_cons,
          List.foldl_nil]
        omega
      · rw [if_neg hc] at h ⊢
        by_cases ht : p.nextPageToken = ""
        · rw [if_pos ht] at h ⊢
          exact ⟨by omega, p, rfl, Or.inr (Or.inr ht)⟩
        · rw [if_neg ht] at h ⊢
          simp only [List.length_cons] at h
          have hlt : (harvestLoop startMs endMs rest
              (if pageAnyGeStart startMs p then 0 else b + 1)).2 < rest.length := by omega
          obtain ⟨h1, q, hq, hd⟩ :=
            ih (if pageAnyGeStart startMs p then 0 else b + 1) hlt
          rcases Nat.exists_eq_add_of_le h1 with ⟨m, hm⟩
          rw [hm] at hq hd ⊢
          refine ⟨by omega, q, ?_, ?_⟩
          · have e1 : 1 + m + 1 - 1 = m + 1 := by omega
            have e2 : 1 + m - 1 = m := by omega
            rw [e2] at hq
            simp only [e1, List.get?_cons_succ]
            exact hq
          · rcases hd with hd | hd | hd
            · exact Or.inl hd
            · refine Or.inr (Or.inl ?_)
              simp only [List.take_succ_cons, belowCutoffFrom, List.foldl_cons]
              exact hd
            · exact Or.inr (Or.inr hd)

theorem mem_pageMatches (startMs endMs : Int) (p : ReviewsPage) (r : Review)
    (h : r ∈ pageMatches startMs endMs p) :
    ∃ ct, r.createTime = some ct ∧ startMs ≤ ct ∧ ct ≤ endMs := by
  have hw : reviewInWindow startMs endMs r = true := (List.mem_filter.mp h).2
  cases hct : r.createTime with
  | none => simp [reviewInWindow, hct] at hw
  | some ct =>
    simp only [reviewInWindow, hct, Bool.and_eq_true, decide_eq_true_eq] at hw
    exact ⟨ct, rfl, hw.1, hw.2⟩

theorem harvestLoop_mem_window (startMs endMs : Int) :
    ∀ ps b r, r ∈ (harvestLoop startMs endMs ps b).1 →
      ∃ ct, r.createTime = some ct ∧ startMs ≤ ct ∧ ct ≤ endMs := by
  intro ps
  induction ps with
  | nil => intro b r h; simp [harvestLoop] at h
  | cons p rest ih =>
    intro b r h
    rw [harvestLoop_cons] at h
    by_cases he : p.reviews.isEmpty
    · rw [if_pos he] at h
      simp at h
    · rw [if_neg he] at h
      by_cases hc : 2 ≤ (if pageAnyGeStart startMs p then 0 else b + 1)
      · rw [if_pos hc] at h
        exact mem_pageMatches startMs endMs p r h
      · rw [if_neg hc] at h
        by_cases ht : p.nextPageToken = ""
        · rw [if_pos ht] at h
          exact mem_pageMatches startMs endMs p r h
        · rw [if_neg ht] at h
          rcases List.mem_append.mp h with hm | hm
          · exact mem_pageMatches startMs endMs p r hm
          · exact ih (if pageAnyGeStart startMs p then 0 else b + 1) r hm

/-- A synthetic review with a present creation instant. -/
def exampleReview (nm : String) (ct : Int) : Review :=
  ⟨nm, some ct, some "FIVE", "Reviewer", "nice"⟩

/-- A synthetic 5-page feed for the window `[100, 200]`: pages 1–2 contain a
review created on/after the window start, pages 3 and 4 contain none, page 5
exists but must never be fetched. -/
def examplePages : List ReviewsPage :=
  [⟨[exampleReview "accounts/a/locations/l/reviews/r1" 150], "t2"⟩,
   ⟨[exampleReview "accounts/a/locations/l/reviews/r2" 160,
     exampleReview "accounts/a/locations/l/reviews/r0" 50], "t3"⟩,
   ⟨[exampleReview "accounts/a/locations/l/reviews/r3" 50], "t4"⟩,
   ⟨[exampleReview "accounts/a/locations/l/reviews/r4" 40], "t5"⟩,
   ⟨[exampleReview "accounts/a/locations/l/reviews/r5" 30], ""⟩]

/-- C3: the harvester's pagination stops exactly at the three loop exits.  For
every page feed: (1) it fetches at most the available pages; (2) whenever a
further page is fetched after page `i`, page `i` was non-empty, returned a
next-page cursor, and the consecutive-below-cutoff counter (which resets to 0
on any page containing an item with creation time ≥ window start and
increments otherwise) was still below 2 after page `i`; (3) if it stops before
exhausting the feed, the last fetched page was empty, or the counter reached
2, or no cursor was returned.  In particular, on the synthetic 5-page feed
whose pages 3 and 4 contain no review created on/after the window start,
exactly 4 of the 5 pages are fetched: page 5 is never requested. -/
theorem listReviewsForLocation_pagination_spec (pages : List ReviewsPage) (startMs endMs : Int) :
    ((listReviewsForLocation pages startMs endMs).2 ≤ pages.length) ∧
    (∀ i, i + 1 < (listReviewsForLocation pages startMs endMs).2 →
      ∃ p, pages.get? i = some p ∧ p.reviews.isEmpty = false ∧ p.nextPageToken ≠ "" ∧
        belowCutoffFrom startMs 0 (pages.take (i + 1)) < 2) ∧
    ((listReviewsForLocation pages startMs endMs).2 < pages.length →
      1 ≤ (listReviewsForLocation pages startMs endMs).2 ∧
      ∃ p, pages.get? ((listReviewsForLocation pages startMs endMs).2 - 1) = some p ∧
        (p.reviews.isEmpty = true ∨
         2 ≤ belowCutoffFrom startMs 0 (pages.take (listReviewsForLocation pages startMs endMs).2) ∨
         p.nextPageToken = "")) ∧
    ((listReviewsForLocation examplePages 100 200).2 = 4 ∧ examplePages.length = 5) := by
  refine ⟨harvestLoop_pages_le startMs endMs pages 0,
    harvestLoop_continue startMs endMs pages 0,
    harvestLoop_stop startMs endMs pages 0,
    by decide, rfl⟩

/-- Witness for C3: on the synthetic feed, applying the theorem at the stop
point shows the 4th page was fetched last and triggered a loop exit. -/
theorem listReviewsForLocation_pagination_spec_witness :
    1 ≤ (listReviewsForLocation examplePages 100 200).2 ∧
    ∃ p, examplePages.get? ((listReviewsForLocation examplePages 100 200).2 - 1) = some p ∧
      (p.reviews.isEmpty = true ∨
       2 ≤ belowCutoffFrom 100 0 (examplePages.take (listReviewsForLocation examplePages 100 200).2) ∨
       p.nextPageToken = "") :=
  (listReviewsForLocation_pagination_spec examplePages 100 200).2.2.1 (by decide)

/-! ## Star ratings (`starRatingToInt`) -/

/-- `String.prototype.toUpperCase()`, modelled character-wise (all inputs the
script compares against are ASCII enum names). -/
def jsToUpper (s : String) : String := String.mk (s.data.map Char.toUpper)

/-- `starRatingToInt(star)`: `null` for a falsy input (absent or empty
string), otherwise the upper-cased string is looked up in
`{ONE: 1, …, FIVE: 5}` with `?? null` for unknown keys. -/
def starRatingToInt : Option String → Option Nat
  | none => none
  | some s =>
    if s = "" then none
    else
      if jsToUpper s = "ONE" then some 1
      else if jsToUpper s = "TWO" then some 2
      else if jsToUpper s = "THREE" then some 3
      else if jsToUpper s = "FOUR" then some 4
      else if jsToUpper s = "FIVE" then some 5
      else none

/-- C10: the star-rating converter yields `none` on an absent or empty value;
on any other string it returns `some n` exactly when the upper-cased input is
one of `ONE`…`FIVE` with `n` the matching integer `1`…`5` (so comparison is
case-insensitive and unrecognized values map to `none`); it is a total
function and every produced integer lies in `1..5`. -/
theorem starRatingToInt_spec :
    starRatingToInt none = none ∧
    starRatingToInt (some "") = none ∧
    (∀ s n, starRatingToInt (some s) = some n ↔
      (s ≠ "" ∧ ((jsToUpper s = "ONE" ∧ n = 1) ∨ (jsToUpper s = "TWO" ∧ n = 2) ∨
        (jsToUpper s = "THREE" ∧ n = 3) ∨ (jsToUpper s = "FOUR" ∧ n = 4) ∨
        (jsToUpper s = "FIVE" ∧ n = 5)))) ∧
    (∀ st n, starRatingToInt st = some n → 1 ≤ n ∧ n ≤ 5) := by
  refine ⟨rfl, rfl, ?_, ?_⟩
  · intro s n
    simp only [starRatingToInt]
    split_ifs with h0 h1 h2 h3 h4 h5 <;> simp_all <;> omega
  · intro st n h
    cases st with
    | none => simp [starRatingToInt] at h
    | some s =>
      simp only [starRatingToInt] at h
      split_ifs at h <;> simp_all <;> omega

/-- Witness for C10: `"four"` is recognized case-insensitively as 4, which
lies in `1..5`. -/
theorem starRatingToInt_spec_witness :
    starRatingToInt (some "four") = some 4 ∧ 1 ≤ 4 ∧ 4 ≤ 5 := by
  have h := (starRatingToInt_spec.2.2.1 "four" 4).mpr
    ⟨by decide, Or.inr (Or.inr (Or.inr (Or.inl ⟨by decide, rfl⟩)))⟩
  exact ⟨h, starRatingToInt_spec.2.2.2 (some "four") 4 h⟩

/-! ## Batch chunking (`chunkArray` and the dispatch loop of `main`) -/

/-- The slicing loop of `chunkArray` for a positive chunk size: successive
slices `arr.slice(i, i + size)`.  The fuel argument (instantiated with the
list length) bounds the iteration count; with `1 ≤ size` it is never
exhausted before the list is. -/
def chunkLoop {α : Type} (size : Nat) : Nat → List α → List (List α)
  | 0, _ => []
  | _, [] => []
  | fuel + 1, l => l.take size :: chunkLoop size fuel (l.drop size)

/-- `chunkArray(arr, size)`: `[arr]` when `size <= 0`, otherwise the list of
successive `size`-sized slices of `arr`. -/
def chunkArray {α : Type} (arr : List α) (size : Int) : List (List α) :=
  if size ≤ 0 then [arr] else chunkLoop size.toNat arr.length arr

/-- The dispatch preparation of `main`: `chunkArray(items, MAKE_BATCH_SIZE)`
followed by `if (chunks.length === 0) chunks.push([])`; each element of the
result is sent as one webhook payload. -/
def dispatchChunks {α : Type} (records : List α) (size : Int) : List (List α) :=
  let cs := chunkArray records size
  if cs.isEmpty then [[]] else cs

theorem chunkLoop_nil {α : Type} (size : Nat) (fuel : Nat) :
    chunkLoop size fuel ([] : List α) = [] := by
  cases fuel <;> rfl

theorem chunkLoop_spec {α : Type} (size : Nat) (hs : 1 ≤ size) :
    ∀ fuel (l : List α), l.length ≤ fuel →
      (chunkLoop size fuel l).join = l ∧
      (∀ c ∈ chunkLoop size fuel l, 1 ≤ c.length ∧ c.length ≤ size) ∧
      (∀ c ∈ (chunkLoop size fuel l).dropLast, c.length = size) := by
  intro fuel
  induction fuel with
  | zero =>
    intro l hl
    have : l = [] := List.eq_nil_of_length_eq_zero (by omega)
    subst this
    simp [chunkLoop]
  | succ n ih =>
    intro l hl
    cases l with
    | nil => simp [chunkLoop]
    | cons a t =>
      have hdrop : ((a :: t).drop size).length ≤ n := by
        simp only [List.length_drop, List.length_cons] at *
        omega
      obtain ⟨ihj, ihm, ihd⟩ := ih ((a :: t).drop size) hdrop
      refine ⟨?_, ?_, ?_⟩
      · simp only [chunkLoop, List.join_cons, ihj, List.take_append_drop]
      · intro c hc
        simp only [chunkLoop, List.mem_cons] at hc
        rcases hc with rfl | hc
        · constructor
          · simp only [List.length_take, List.length_cons]
            omega
          · simp only [List.length_take]
            omega
        · exact ihm c hc
      · intro c hc
        by_cases hrec : chunkLoop size n ((a :: t).drop size) = []
        · simp only [chunkLoop, hrec, List.dropLast_single] at hc
          simp at hc
        · have hmem : c = (a :: t).take size ∨ c ∈ (chunkLoop size n ((a :: t).drop size)).dropLast := by
            simp only [chunkLoop] at hc
            rw [List.dropLast_cons_of_ne_nil hrec] at hc
            simpa using hc
          rcases hmem with rfl | hmem
          · have hne : (a :: t).drop size ≠ [] := by
              intro hdn
              rw [hdn, chunkLoop_nil] at hrec
              exact hrec rfl
            have : size < (a :: t).length := by
              by_contra hle
              push_neg at hle
              have : (a :: t).drop size = [] := List.drop_eq_nil_of_le hle
              exact hne this
            simp only [List.length_take]
            omega
          · exact ihd c hmem

theorem chunkLoop_cons {α : Type} (size n : Nat) (a : α) (t : List α) :
    chunkLoop size (n + 1) (a :: t) =
      (a :: t).take size :: chunkLoop size n ((a :: t).drop size) := rfl

set_option maxRecDepth 20000 in
/-- C5: for every record list and positive `maxBatchSize`, the dispatch step
sends ordered, contiguous chunks (their concatenation is the record list in
order), at least one chunk, every chunk except possibly the last of size
exactly `maxBatchSize`, no chunk larger, and — when the list is non-empty —
no empty chunk; an empty record list still produces exactly one chunk with
zero records.  Concretely, 205 records at `maxBatchSize = 200` give chunk
sizes `[200, 5]` and 0 records give exactly one empty chunk. -/
theorem dispatchChunks_spec {α : Type} (records : List α) (size : Int) (hs : 0 < size) :
    (dispatchChunks records size).join = records ∧
    1 ≤ (dispatchChunks records size).length ∧
    (∀ c ∈ (dispatchChunks records size).dropLast, c.length = size.toNat) ∧
    (∀ c ∈ dispatchChunks records size, c.length ≤ size.toNat) ∧
    (records = [] → dispatchChunks records size = [[]]) ∧
    (records ≠ [] → ∀ c ∈ dispatchChunks records size, 1 ≤ c.length) ∧
    (dispatchChunks (List.range 205) (200 : Int)).map List.length = [200, 5] ∧
    dispatchChunks ([] : List Nat) (200 : Int) = [[]] := by
  have hs1 : 1 ≤ size.toNat := by omega
  have hsle : ¬ size ≤ 0 := by omega
  by_cases hrec : records = []
  · subst hrec
    have hd : dispatchChunks ([] : List α) size = [[]] := by
      simp [dispatchChunks, chunkArray, if_neg hsle, chunkLoop_nil]
    rw [hd]
    refine ⟨rfl, by simp, by simp, by simp, fun _ => rfl, fun hne => absurd rfl hne,
      by decide, by decide⟩
  · obtain ⟨hj, hm, hd⟩ := chunkLoop_spec size.toNat hs1 records.length records le_rfl
    have hne : (chunkLoop size.toNat records.length records).isEmpty = false := by
      cases records with
      | nil => exact absurd rfl hrec
      | cons a t => rw [show (a :: t).length = t.length + 1 from rfl, chunkLoop_cons]; rfl
    have hcs : dispatchChunks records size = chunkLoop size.toNat records.length records := by
      simp only [dispatchChunks, chunkArray, if_neg hsle]
      rw [if_neg (by simp [hne])]
    rw [hcs]
    refine ⟨hj, ?_, hd, fun c hc => (hm c hc).2, fun h => absurd h hrec,
      fun _ c hc => (hm c hc).1, by decide, by decide⟩
    have : chunkLoop size.toNat records.length records ≠ [] := by
      intro h
      rw [h] at hne
      simp [List.isEmpty] at hne
    cases hchunks : chunkLoop size.toNat records.length records with
    | nil => exact absurd hchunks this
    | cons c cs => simp

/-- Witness for C5: applied at 205 records with batch size 200 — the chunks
concatenate back to the records and have sizes `[200, 5]`. -/
theorem dispatchChunks_spec_witness :
    (dispatchChunks (List.range 205) (200 : Int)).join = List.range 205 ∧
    (dispatchChunks (List.range 205) (200 : Int)).map List.length = [200, 5] := by
  have h := dispatchChunks_spec (List.range 205) (200 : Int) (by omega)
  exact ⟨h.1, h.2.2.2.2.2.2.1⟩

/-! ## Comment cleaning (`cleanComment`) -/

/-- JavaScript's whitespace class for `trim`/`trimEnd` (space, tab, line
terminators, vertical tab, form feed, NBSP — the cases relevant to review
text). -/
def isJsWs (c : Char) : Bool :=
  c = ' ' || c = '\t' || c = '\n' || c = '\r' || c = '\x0b' || c = '\x0c' || c = ' '

/-- `String.prototype.trimEnd()` on the character list. -/
def trimEndL (l : List Char) : List Char := (l.reverse.dropWhile isJsWs).reverse

/-- `String.prototype.trim()` on the character list. -/
def trimL (l : List Char) : List Char := trimEndL (l.dropWhile isJsWs)

/-- `hay.indexOf(needle)`: the least index at which `needle` occurs as a
contiguous segment, `none` when it does not occur. -/
def indexOfL (needle : List Char) : List Char → Option Nat
  | [] => if needle = [] then some 0 else none
  | c :: t =>
    if (c :: t).take needle.length = needle then some 0
    else (indexOfL needle t).map (· + 1)

/-- `needle` occurs in `hay` at index `i`. -/
def occursAt (needle hay : List Char) (i : Nat) : Prop :=
  (hay.drop i).take needle.length = needle

/-- The machine-translation markers of `cleanComment`, in loop order. -/
def mtMarker1 : List Char := "(Translated by Google)".data

/-- The second machine-translation marker. -/
def mtMarker2 : List Char := "(Übersetzt von Google)".data

/-- The `markers` array of the script. -/
def mtMarkers : List (List Char) := [mtMarker1, mtMarker2]

/-- One iteration of the marker loop: truncate at the marker's first
occurrence and trim trailing whitespace, or keep the text unchanged. -/
def cleanStep (t : List Char) (m : List Char) : List Char :=
  match indexOfL m t with
  | none => t
  | some i => trimEndL (t.take i)

/-- `cleanComment(text)` on the character list: trim, then apply the marker
loop in order. -/
def cleanCommentL (text : List Char) : List Char :=
  mtMarkers.foldl cleanStep (trimL text)

/-- `cleanComment(text)`. -/
def cleanComment (text : String) : String := String.mk (cleanCommentL text.data)

theorem dropWhile_eq_drop (p : Char → Bool) (l : List Char) :
    l.dropWhile p = l.drop (l.takeWhile p).length := by
  calc l.dropWhile p
      = ((l.takeWhile p) ++ (l.dropWhile p)).drop (l.takeWhile p).length :=
        (List.drop_left _ _).symm
    _ = l.drop (l.takeWhile p).length := by rw [List.takeWhile_append_dropWhile]

theorem takeWhile_eq_take (p : Char → Bool) (l : List Char) :
    l.takeWhile p = l.take (l.takeWhile p).length := by
  calc l.takeWhile p
      = ((l.takeWhile p) ++ (l.dropWhile p)).take (l.takeWhile p).length :=
        (List.take_left _ _).symm
    _ = l.take (l.takeWhile p).length := by rw [List.takeWhile_append_dropWhile]

theorem occursAt_length_le (needle hay : List Char) (i : Nat) (hn : 1 ≤ needle.length)
    (h : occursAt needle hay i) : i + needle.length ≤ hay.length := by
  have hlen := congrArg List.length h
  simp only [List.length_take, List.length_drop] at hlen
  omega

theorem occursAt_char (needle hay : List Char) (i k : Nat) (h : occursAt needle hay i)
    (hk : k < needle.length) : hay[i + k]? = needle[k]? := by
  have : ((hay.drop i).take needle.length)[k]? = needle[k]? := by rw [h]
  rw [List.getElem?_take, if_pos hk, List.getElem?_drop] at this
  exact this

theorem occursAt_of_take (needle hay : List Char) (K i : Nat)
    (h : occursAt needle (hay.take K) i) : occursAt needle hay i := by
  unfold occursAt at h ⊢
  rw [List.drop_take, List.take_take] at h
  have hlen := congrArg List.length h
  simp only [List.length_take, List.length_drop] at hlen
  have hmin : min needle.length (K - i) = needle.length := by omega
  rwa [hmin] at h

theorem occursAt_take_of (needle hay : List Char) (K i : Nat)
    (h : occursAt needle hay i) (hK : i + needle.length ≤ K) :
    occursAt needle (hay.take K) i := by
  unfold occursAt at h ⊢
  rw [List.drop_take, List.take_take]
  have hmin : min needle.length (K - i) = needle.length := by omega
  rwa [hmin]

theorem trimEndL_eq_take (l : List Char) :
    trimEndL l = l.take (trimEndL l).length ∧ (trimEndL l).length ≤ l.length := by
  set K := (l.reverse.takeWhile isJsWs).length with hK
  have hKle : K ≤ l.length := by
    have := congrArg List.length (List.takeWhile_append_dropWhile isJsWs l.reverse)
    simp only [List.length_append, List.length_reverse] at this
    omega
  have h1 : trimEndL l = (l.reverse.drop K).reverse := by
    unfold trimEndL
    rw [dropWhile_eq_drop]
  have h2 : l.reverse.drop K = (l.take (l.length - K)).reverse := by
    rw [List.reverse_take]
    congr 1
    omega
  have h3 : trimEndL l = l.take (l.length - K) := by
    rw [h1, h2, List.reverse_reverse]
  have h4 : (trimEndL l).length = l.length - K := by
    rw [h3, List.length_take]
    omega
  constructor
  · rw [h4]
    exact h3
  · omega

theorem occursAt_cons_succ (needle : List Char) (c : Char) (t : List Char) (k : Nat) :
    occursAt needle (c :: t) (k + 1) ↔ occursAt needle t k := by
  unfold occursAt
  rw [List.drop_succ_cons]

theorem indexOfL_none_iff (needle : List Char) :
    ∀ hay, indexOfL needle hay = none → ∀ i, ¬ occursAt needle hay i := by
  intro hay
  induction hay with
  | nil =>
    intro h i hocc
    unfold indexOfL at h
    unfold occursAt at hocc
    simp only [List.drop_nil, List.take_nil] at hocc
    rw [if_pos hocc.symm] at h
    exact Option.some_ne_none 0 h
  | cons c t ih =>
    intro h i hocc
    unfold indexOfL at h
    by_cases hc : (c :: t).take needle.length = needle
    · rw [if_pos hc] at h
      exact Option.some_ne_none 0 h
    · rw [if_neg hc] at h
      cases i with
      | zero => exact hc hocc
      | succ k =>
        have hrec : indexOfL needle t = none := by
          cases hr : indexOfL needle t with
          | none => rfl
          | some j => rw [hr] at h; simp at h
        exact ih hrec k ((occursAt_cons_succ needle c t k).mp hocc)

theorem indexOfL_some_spec (needle : List Char) :
    ∀ hay i, indexOfL needle hay = some i →
      occursAt needle hay i ∧ ∀ j, j < i → ¬ occursAt needle hay j := by
  intro hay
  induction hay with
  | nil =>
    intro i h
    unfold indexOfL at h
    by_cases hn : needle = []
    · rw [if_pos hn] at h
      cases h
      refine ⟨?_, by omega⟩
      unfold occursAt
      simp [hn]
    · rw [if_neg hn] at h
      exact absurd h (by simp)
  | cons c t ih =>
    intro i h
    unfold indexOfL at h
    by_cases hc : (c :: t).take needle.length = needle
    · rw [if_pos hc] at h
      cases h
      exact ⟨hc, by omega⟩
    · rw [if_neg hc] at h
      cases hr : indexOfL needle t with
      | none => rw [hr] at h; simp at h
      | some j =>
        rw [hr] at h
        simp only [Option.map_some'] at h
        cases h
        obtain ⟨hocc, hmin⟩ := ih j hr
        refine ⟨(occursAt_cons_succ needle c t j).mpr hocc, ?_⟩
        intro k hk
        cases k with
        | zero => exact hc
        | succ k' =>
          intro hox
          exact hmin k' (by omega) ((occursAt_cons_succ needle c t k').mp hox)

theorem indexOfL_first (needle : List Char) :
    ∀ hay i, occursAt needle hay i → ∃ j, j ≤ i ∧ indexOfL needle hay = some j := by
  intro hay
  induction hay with
  | nil =>
    intro i h
    unfold occursAt at h
    simp only [List.drop_nil, List.take_nil] at h
    refine ⟨0, by omega, ?_⟩
    unfold indexOfL
    rw [if_pos h.symm]
  | cons c t ih =>
    intro i h
    by_cases hc : (c :: t).take needle.length = needle
    · refine ⟨0, by omega, ?_⟩
      unfold indexOfL
      rw [if_pos hc]
    · cases i with
      | zero => exact absurd h hc
      | succ k =>
        obtain ⟨j, hj, hr⟩ := ih k ((occursAt_cons_succ needle c t k).mp h)
        refine ⟨j + 1, by omega, ?_⟩
        unfold indexOfL
        rw [if_neg hc, hr]
        rfl

theorem trimEndL_keeps (l : List Char) (j : Nat) (c : Char)
    (hj : l[j]? = some c) (hc : isJsWs c = false) : j < (trimEndL l).length := by
  set K := (l.reverse.takeWhile isJsWs).length with hK
  have hKle : K ≤ l.length := by
    have := congrArg List.length (List.takeWhile_append_dropWhile isJsWs l.reverse)
    simp only [List.length_append, List.length_reverse] at this
    omega
  have hlen : (trimEndL l).length = l.length - K := by
    unfold trimEndL
    rw [dropWhile_eq_drop, List.length_reverse, List.length_drop, List.length_reverse]
  have hjlt : j < l.length := by
    by_contra hx
    push_neg at hx
    rw [List.getElem?_eq_none (by omega)] at hj
    exact Option.noConfusion hj
  rw [hlen]
  by_contra hx
  push_neg at hx
  have hi : l.length - 1 - j < K := by omega
  have hrev : l.reverse[l.length - 1 - j]? = some c := by
    rw [List.getElem?_reverse (by omega)]
    rw [show l.length - 1 - (l.length - 1 - j) = j from by omega]
    exact hj
  have htw : l.reverse.takeWhile isJsWs = l.reverse.take K := takeWhile_eq_take isJsWs l.reverse
  have hmem : c ∈ l.reverse.takeWhile isJsWs := by
    rw [htw]
    have : (l.reverse.take K)[l.length - 1 - j]? = some c := by
      rw [List.getElem?_take, if_pos hi]
      exact hrev
    exact List.getElem?_mem this
  have := List.mem_takeWhile_imp hmem
  rw [hc] at this
  exact Bool.noConfusion this

theorem mtMarker1_length : mtMarker1.length = 22 := rfl

theorem mtMarker2_length : mtMarker2.length = 22 := rfl

theorem mtMarker1_head : mtMarker1[0]? = some '(' := rfl

theorem mtMarker2_last : mtMarker2[21]? = some ')' := rfl

/-- `mtMarker2` contains `'('` only at position 0 — occurrences of the two
markers cannot overlap. -/
theorem mtMarker2_inner : ∀ k, k < 22 → 1 ≤ k → ¬ (mtMarker2[k]? = some '(') := by
  decide

theorem markers_no_overlap (t : List Char) (i1 i2 : Nat)
    (h1 : occursAt mtMarker1 t i1) (h2 : occursAt mtMarker2 t i2) (hlt : i2 < i1) :
    i2 + 22 ≤ i1 := by
  by_contra hcon
  push_neg at hcon
  have hc1 : t[i1]? = some '(' := by
    have h := occursAt_char mtMarker1 t i1 0 h1 (by rw [mtMarker1_length]; omega)
    rw [Nat.add_zero] at h
    rw [h, mtMarker1_head]
  have hc2 : t[i2 + (i1 - i2)]? = mtMarker2[i1 - i2]? :=
    occursAt_char mtMarker2 t i2 (i1 - i2) h2 (by rw [mtMarker2_length]; omega)
  rw [show i2 + (i1 - i2) = i1 from by omega] at hc2
  exact mtMarker2_inner (i1 - i2) (by omega) (by omega) (by rw [← hc2]; exact hc1)

theorem occursAt_through_trimEnd_take (n t0 : List Char) (K j : Nat) (hn : 1 ≤ n.length)
    (h : occursAt n (trimEndL (t0.take K)) j) :
    occursAt n t0 j ∧ j + n.length ≤ (trimEndL (t0.take K)).length := by
  obtain ⟨hterm, _⟩ := trimEndL_eq_take (t0.take K)
  have hlen2 := occursAt_length_le n _ j hn h
  refine ⟨?_, hlen2⟩
  rw [hterm] at h
  exact occursAt_of_take n t0 K j (occursAt_of_take n (t0.take K) _ j h)

/-- The first index at which any marker of the fixed list occurs. -/
def firstMarkerIndex (t : List Char) : Option Nat :=
  match indexOfL mtMarker1 t, indexOfL mtMarker2 t with
  | some i, some j => some (min i j)
  | some i, none => some i
  | none, some j => some j
  | none, none => none

/-- `cleanComment` as the specification words it: trim surrounding
whitespace, then truncate at the first occurrence of any marker of the fixed
list (discarding the marker and everything after it, trimming trailing
whitespace from the result); text without any marker is kept as trimmed. -/
def cleanCommentSpecL (text : List Char) : List Char :=
  match firstMarkerIndex (trimL text) with
  | none => trimL text
  | some i => trimEndL ((trimL text).take i)

/-- The sequential two-marker loop of the script computes exactly the
specification's first-marker truncation. -/
theorem cleanCommentL_eq_spec (text : List Char) :
    cleanCommentL text = cleanCommentSpecL text := by
  unfold cleanCommentL cleanCommentSpecL mtMarkers
  set t0 := trimL text with ht0
  simp only [List.foldl_cons, List.foldl_nil]
  cases h1 : indexOfL mtMarker1 t0 with
  | none =>
    cases h2 : indexOfL mtMarker2 t0 with
    | none => simp only [cleanStep, h1, h2, firstMarkerIndex]
    | some i2 => simp only [cleanStep, h1, h2, firstMarkerIndex]
  | some i1 =>
    cases h2 : indexOfL mtMarker2 t0 with
    | none =>
      have hno : indexOfL mtMarker2 (trimEndL (t0.take i1)) = none := by
        cases hx : indexOfL mtMarker2 (trimEndL (t0.take i1)) with
        | none => rfl
        | some j =>
          obtain ⟨hocc, _⟩ := indexOfL_some_spec mtMarker2 _ j hx
          obtain ⟨hocc0, _⟩ := occursAt_through_trimEnd_take mtMarker2 t0 i1 j
            (by rw [mtMarker2_length]; omega) hocc
          exact absurd hocc0 (indexOfL_none_iff mtMarker2 t0 h2 j)
      simp only [cleanStep, h1, h2, hno, firstMarkerIndex]
    | some i2 =>
      obtain ⟨hocc1, hmin1⟩ := indexOfL_some_spec mtMarker1 t0 i1 h1
      obtain ⟨hocc2, hmin2⟩ := indexOfL_some_spec mtMarker2 t0 i2 h2
      by_cases hle : i1 ≤ i2
      · have hno : indexOfL mtMarker2 (trimEndL (t0.take i1)) = none := by
          cases hx : indexOfL mtMarker2 (trimEndL (t0.take i1)) with
          | none => rfl
          | some j =>
            obtain ⟨hocc, _⟩ := indexOfL_some_spec mtMarker2 _ j hx
            obtain ⟨hocc0, hjlen⟩ := occursAt_through_trimEnd_take mtMarker2 t0 i1 j
              (by rw [mtMarker2_length]; omega) hocc
            have hj2 : ¬ j < i2 := fun hlt => hmin2 j hlt hocc0
            have hlen_take := (trimEndL_eq_take (t0.take i1)).2
            have hti : (t0.take i1).length ≤ i1 := by
              rw [List.length_take]
              omega
            rw [mtMarker2_length] at hjlen
            omega
        simp only [cleanStep, h1, h2, hno, firstMarkerIndex]
        rw [show min i1 i2 = i1 from by omega]
      · push_neg at hle
        have hsep : i2 + 22 ≤ i1 := markers_no_overlap t0 i1 i2 hocc1 hocc2 hle
        have hocc_take : occursAt mtMarker2 (t0.take i1) i2 :=
          occursAt_take_of mtMarker2 t0 i1 i2 hocc2 (by rw [mtMarker2_length]; omega)
        have hlast : (t0.take i1)[i2 + 21]? = some ')' := by
          have h := occursAt_char mtMarker2 (t0.take i1) i2 21 hocc_take
            (by rw [mtMarker2_length]; omega)
          rw [mtMarker2_last] at h
          exact h
        have hkeep : i2 + 21 < (trimEndL (t0.take i1)).length :=
          trimEndL_keeps _ _ _ hlast rfl
        obtain ⟨hterm, hlenle⟩ := trimEndL_eq_take (t0.take i1)
        have hocc_t1 : occursAt mtMarker2 (trimEndL (t0.take i1)) i2 := by
          rw [hterm]
          exact occursAt_take_of mtMarker2 (t0.take i1) _ i2 hocc_take
            (by rw [mtMarker2_length]; omega)
        obtain ⟨j, hji, hjx⟩ := indexOfL_first mtMarker2 _ i2 hocc_t1
        have hocc0 := (occursAt_through_trimEnd_take mtMarker2 t0 i1 j
          (by rw [mtMarker2_length]; omega)
          (indexOfL_some_spec mtMarker2 _ j hjx).1).1
        have hj2 : ¬ j < i2 := fun hlt => hmin2 j hlt hocc0
        have hj : j = i2 := by omega
        rw [hj] at hjx
        have htake : (trimEndL (t0.take i1)).take i2 = t0.take i2 := by
          rw [hterm, List.take_take, List.take_take]
          congr 1
          omega
        simp only [cleanStep, h1, h2, hjx, firstMarkerIndex]
        rw [htake, show min i1 i2 = i2 from by omega]

/-- `cleanComment` as described by the specification, on strings. -/
def cleanCommentSpec (text : String) : String := String.mk (cleanCommentSpecL text.data)

set_option maxRecDepth 4000 in
/-- C6: `cleanComment` trims surrounding whitespace and truncates at the
first occurrence of any machine-translation marker from the fixed list
`["(Translated by Google)", "(Übersetzt von Google)"]`, discarding the marker
and everything after it and trimming trailing whitespace from the result
(proved as equality with the specification-worded function); text containing
no marker is returned unchanged apart from trimming; and
`"Great place (Translated by Google)"` yields `"Great place"`. -/
theorem cleanComment_spec :
    (∀ text : String, cleanComment text = cleanCommentSpec text) ∧
    (∀ text : String, (∀ m ∈ mtMarkers, indexOfL m (trimL text.data) = none) →
      cleanComment text = String.mk (trimL text.data)) ∧
    cleanComment "Great place (Translated by Google)" = "Great place" := by
  refine ⟨?_, ?_, ?_⟩
  · intro text
    unfold cleanComment cleanCommentSpec
    rw [cleanCommentL_eq_spec]
  · intro text hnone
    unfold cleanComment
    rw [cleanCommentL_eq_spec]
    unfold cleanCommentSpecL
    rw [show firstMarkerIndex (trimL text.data) = none from ?_]
    · unfold firstMarkerIndex
      rw [hnone mtMarker1 (by simp [mtMarkers]), hnone mtMarker2 (by simp [mtMarkers])]
  · decide

/-- Witness for C6: a marker-free text is returned unchanged apart from
trimming. -/
theorem cleanComment_spec_witness :
    cleanComment "  Great place!  " = String.mk (trimL "  Great place!  ".data) :=
  cleanComment_spec.2.1 "  Great place!  " (by decide)

/-! ## The run pipeline (`main`) -/

/-- A location row as returned by `listLocations` (`name` is the resource
name `accounts/…/locations/<id>`). -/
structure GbpLocation where
  name : String
  storeCode : String
  title : String
deriving DecidableEq

/-- `String.prototype.trim()` on strings. -/
def jsTrim (s : String) : String := String.mk (trimL s.data)

/-- The split step of `s.split("/")`, built structurally on the character
list (accumulating the current segment reversed). -/
def splitSlashAux : List Char → List Char → List (List Char)
  | [], acc => [acc.reverse]
  | c :: t, acc =>
    if c = '/' then acc.reverse :: splitSlashAux t []
    else splitSlashAux t (c :: acc)

/-- `s.split("/").pop()`: the substring after the last slash (the whole
string when no slash occurs, the empty string for an empty input). -/
def lastSlashComponent (s : String) : String :=
  String.mk ((splitSlashAux s.data []).getLastD [])

/-- The `locationId` a worker derives from its location row. -/
def locIdOf (loc : GbpLocation) : String := lastSlashComponent (jsTrim loc.name)

/-- `PUBLIC_APP_URL.replace(/\/$/, "")`. -/
def dropTrailingSlash (s : String) : String :=
  if s.data.getLast? = some '/' then String.mk s.data.dropLast else s

/-- Abstraction of `createdBerlin.toFormat("dd.MM.yyyy HH:mm:ss")`: rendered
here as the decimal Berlin wall-clock milliseconds of the instant; the claims
use only that it is a non-empty string determined by the instant. -/
def formatBerlin (t : Int) : String := toString (berlinLocalMs t)

/-- `buildCommentFull(comment, reviewer, reviewedAt)`: placeholder for an
empty comment or reviewer, a two-line string with the attribution suffix,
the date appended when a formatted timestamp is present. -/
def buildCommentFull (comment reviewer reviewedAt : String) : String :=
  let base := if jsTrim comment = "" then "(kein Kommentar)" else jsTrim comment
  let nm := if jsTrim reviewer = "" then "Unbekannt" else jsTrim reviewer
  let suffix := if reviewedAt = "" then "— " ++ nm else "— " ++ nm ++ ", am " ++ reviewedAt
  base ++ "\n" ++ suffix

/-- One record of the `items` array.  `reviewedAtMs` abstracts the formatted
`reviewed_at` field as the creation instant it renders. -/
structure RunItem where
  storeCode : Option String
  locationTitle : Option String
  locationId : String
  reviewId : Option String
  rating : Option Nat
  reviewer : Option String
  reviewedAtMs : Int
  comment : Option String
  commentFull : String
  prefillRid : Option String
  smartReplyUrl : Option String
  prefillError : Option String
deriving DecidableEq

/-- `res.ok` of the Fetch API: status in `200..299`. -/
def resOk (r : HttpResponse) : Bool := 200 ≤ r.status && r.status ≤ 299

/-- `createPrefillRid(payload)`, given the outcome of its `requestWithRetry`
call and the JSON `rid` extraction from the body (`none` models a malformed
body or an absent `rid`; JS `!j.rid` also rejects an empty string).  A
transport failure (retries exhausted) rethrows; a non-2xx response or a
missing identifier throws the corresponding `Prefill …` error. -/
def createPrefillRid (transport : Except String HttpResponse)
    (ridOf : String → Option String) : Except String String :=
  match transport with
  | .error e => .error e
  | .ok res =>
    if resOk res then
      match ridOf res.body with
      | some rid =>
        if rid = "" then .error ("Prefill response missing rid: " ++ res.body)
        else .ok rid
      | none => .error ("Prefill response missing rid: " ++ res.body)
    else .error ("Prefill error " ++ toString res.status ++ ": " ++ res.body)

/-- One iteration of the per-review loop in `main`'s worker: the item pushed
for a harvested review, given the outcome of the prefill attempt (`mint`).
On a prefill failure the error message (JS `e.message || String(e)`, never
empty) is recorded and the reply fields stay null. -/
def buildRunItem (publicAppUrl locationId storeCode locationTitle : String)
    (r : Review) (mint : Except String String) : RunItem :=
  let reviewId := lastSlashComponent (jsTrim r.name)
  let reviewer := jsTrim r.reviewerName
  let ct := r.createTime.getD 0
  let reviewedAt := formatBerlin ct
  let commentClean := cleanComment r.comment
  let rid := match mint with | .ok rid => rid | .error _ => ""
  let prefillError := match mint with
    | .ok _ => ""
    | .error e => if e = "" then "Error" else e
  let smartReplyUrl := match mint with
    | .ok rid => dropTrailingSlash publicAppUrl ++ "/?rid=" ++ rid
    | .error _ => ""
  { storeCode := if storeCode = "" then none else some storeCode
    locationTitle := if locationTitle = "" then none else some locationTitle
    locationId := locationId
    reviewId := if reviewId = "" then none else some reviewId
    rating := starRatingToInt r.starRating
    reviewer := if reviewer = "" then none else some reviewer
    reviewedAtMs := ct
    comment := if commentClean = "" then none else some commentClean
    commentFull := buildCommentFull commentClean reviewer reviewedAt
    prefillRid := if rid = "" then none else some rid
    smartReplyUrl := if smartReplyUrl = "" then none else some smartReplyUrl
    prefillError := if prefillError = "" then none else some prefillError }

/-- The per-review loop of one worker: every harvested review is pushed
exactly once, in feed order. -/
def processLocationReviews (publicAppUrl locationId storeCode locationTitle : String)
    (mint : Review → Except String String) (reviews : List Review) : List RunItem :=
  reviews.map (fun r => buildRunItem publicAppUrl locationId storeCode locationTitle r (mint r))

/-- Everything one location's worker appends to `items`, in order: nothing
when the location id is missing, when the harvest threw (caught per
location), or when no review matched the window. -/
def locationItems (publicAppUrl : String) (loc : GbpLocation)
    (harvest : String → Except String (List Review))
    (mint : String → Review → Except String String) : List RunItem :=
  if locIdOf loc = "" then []
  else
    match harvest (locIdOf loc) with
    | .error _ => []
    | .ok reviews =>
      processLocationReviews publicAppUrl (locIdOf loc) (jsTrim loc.storeCode)
        (jsTrim loc.title) (mint (locIdOf loc)) reviews

/-- The per-location error report of `main` (`- ERROR reviews …`): the caught
harvest error, `none` when the location harvested successfully or was
skipped. -/
def locationHarvestError (loc : GbpLocation)
    (harvest : String → Except String (List Review)) : Option String :=
  if locIdOf loc = "" then none
  else
    match harvest (locIdOf loc) with
    | .error e => some e
    | .ok _ => none

/-- One interleaving of the workers' pushes into the shared `items` array: at
each await boundary the schedule names the location whose worker performs its
next push.  `asyncPool` keeps up to `CONCURRENCY` workers in flight and every
worker suspends between pushes (the prefill call and the pacing sleep), so
the interleavings of the in-flight locations' sequences are exactly the
schedulable orders; a schedule is valid (`some` result) when every pick has a
pending item and all items are eventually pushed. -/
def scheduleRun {α : Type} : List (List α) → List Nat → Option (List α)
  | ls, [] => if ls.all List.isEmpty then some [] else none
  | ls, i :: sched =>
    match ls[i]? with
    | some (x :: rest) => (scheduleRun (ls.set i rest) sched).map (x :: ·)
    | _ => none

/-- The fan-out phase of `main`: each location's worker contributes its item
sequence; the schedule fixes the order in which the concurrent workers append
to the shared `items` array. -/
def runPipeline (publicAppUrl : String) (locs : List GbpLocation)
    (harvest : String → Except String (List Review))
    (mint : String → Review → Except String String)
    (sched : List Nat) : Option (List RunItem) :=
  scheduleRun (locs.map (fun loc => locationItems publicAppUrl loc harvest mint)) sched

theorem getElem?_some_lt {α : Type} {l : List α} {i : Nat} {a : α}
    (h : l[i]? = some a) : i < l.length := by
  by_contra hx
  push_neg at hx
  rw [List.getElem?_eq_none hx] at h
  exact Option.noConfusion h

theorem sum_length_set {α : Type} :
    ∀ (ls : List (List α)) (i : Nat) (x : α) (rest : List α),
      ls[i]? = some (x :: rest) →
      ((ls.set i rest).map List.length).sum + 1 = (ls.map List.length).sum := by
  intro ls
  induction ls with
  | nil => intro i x rest h; simp at h
  | cons l t ih =>
    intro i x rest h
    cases i with
    | zero =>
      rw [List.getElem?_cons_zero] at h
      cases h
      simp only [List.set_cons_zero, List.map_cons, List.sum_cons, List.length_cons]
      omega
    | succ n =>
      rw [List.getElem?_cons_succ] at h
      have := ih n x rest h
      simp only [List.set_cons_succ, List.map_cons, List.sum_cons]
      omega

theorem scheduleRun_nil {α : Type} (ls : List (List α)) :
    scheduleRun ls [] = if ls.all List.isEmpty then some [] else none := rfl

theorem scheduleRun_cons_some {α : Type} (ls : List (List α)) (i : Nat) (sched : List Nat)
    (x : α) (rest : List α) (hg : ls[i]? = some (x :: rest)) :
    scheduleRun ls (i :: sched) = (scheduleRun (ls.set i rest) sched).map (x :: ·) := by
  conv_lhs => rw [scheduleRun]
  rw [hg]

theorem scheduleRun_cons_stuck {α : Type} (ls : List (List α)) (i : Nat) (sched : List Nat)
    (h : ls[i]? = none ∨ ls[i]? = some []) : scheduleRun ls (i :: sched) = none := by
  unfold scheduleRun
  rcases h with h | h <;> rw [h]

theorem scheduleRun_length {α : Type} :
    ∀ (sched : List Nat) (ls : List (List α)) (out : List α),
      scheduleRun ls sched = some out → out.length = (ls.map List.length).sum := by
  intro sched
  induction sched with
  | nil =>
    intro ls out h
    rw [scheduleRun_nil] at h
    by_cases ha : ls.all List.isEmpty
    · rw [if_pos ha] at h
      cases h
      rw [List.all_eq_true] at ha
      simp only [List.length_nil]
      symm
      rw [List.sum_eq_zero_iff]
      intro n hn
      simp only [List.mem_map] at hn
      obtain ⟨l, hl, hln⟩ := hn
      rw [List.isEmpty_iff.mp (ha l hl)] at hln
      simp at hln
      omega
    · rw [if_neg ha] at h
      exact absurd h (by simp)
  | cons i sched ih =>
    intro ls out h
    cases hg : ls[i]? with
    | none =>
      rw [scheduleRun_cons_stuck ls i sched (Or.inl hg)] at h
      exact absurd h (by simp)
    | some l =>
      cases l with
      | nil =>
        rw [scheduleRun_cons_stuck ls i sched (Or.inr hg)] at h
        exact absurd h (by simp)
      | cons x rest =>
        rw [scheduleRun_cons_some ls i sched x rest hg] at h
        cases hr : scheduleRun (ls.set i rest) sched with
        | none => rw [hr] at h; exact absurd h (by simp)
        | some out' =>
          rw [hr] at h
          simp only [Option.map_some'] at h
          cases h
          have h1 := ih (ls.set i rest) out' hr
          have h2 := sum_length_set ls i x rest hg
          simp only [List.length_cons]
          omega

theorem scheduleRun_mem {α : Type} :
    ∀ (sched : List Nat) (ls : List (List α)) (out : List α) (x : α),
      scheduleRun ls sched = some out → x ∈ out → ∃ l, l ∈ ls ∧ x ∈ l := by
  intro sched
  induction sched with
  | nil =>
    intro ls out x h hx
    rw [scheduleRun_nil] at h
    by_cases ha : ls.all List.isEmpty
    · rw [if_pos ha] at h
      cases h
      simp at hx
    · rw [if_neg ha] at h
      exact absurd h (by simp)
  | cons i sched ih =>
    intro ls out x h hx
    cases hg : ls[i]? with
    | none =>
      rw [scheduleRun_cons_stuck ls i sched (Or.inl hg)] at h
      exact absurd h (by simp)
    | some l =>
      cases l with
      | nil =>
        rw [scheduleRun_cons_stuck ls i sched (Or.inr hg)] at h
        exact absurd h (by simp)
      | cons y rest =>
        rw [scheduleRun_cons_some ls i sched y rest hg] at h
        cases hr : scheduleRun (ls.set i rest) sched with
        | none => rw [hr] at h; exact absurd h (by simp)
        | some out' =>
          rw [hr] at h
          simp only [Option.map_some'] at h
          cases h
          rcases List.mem_cons.mp hx with rfl | hx'
          · exact ⟨x :: rest, List.getElem?_mem hg, List.mem_cons_self x rest⟩
          · obtain ⟨l, hl, hxl⟩ := ih (ls.set i rest) out' x hr hx'
            rcases List.mem_or_eq_of_mem_set hl with hl' | rfl
            · exact ⟨l, hl', hxl⟩
            · exact ⟨y :: l, List.getElem?_mem hg, List.mem_cons_of_mem y hxl⟩

theorem scheduleRun_filter {α : Type} (p : α → Bool) :
    ∀ (sched : List Nat) (ls : List (List α)) (out : List α) (k : Nat) (lk : List α),
      scheduleRun ls sched = some out →
      ls[k]? = some lk →
      (∀ x ∈ lk, p x = true) →
      (∀ j lj, j ≠ k → ls[j]? = some lj → ∀ y ∈ lj, p y = false) →
      out.filter p = lk := by
  intro sched
  induction sched with
  | nil =>
    intro ls out k lk h hk hlk hother
    rw [scheduleRun_nil] at h
    by_cases ha : ls.all List.isEmpty
    · rw [if_pos ha] at h
      cases h
      rw [List.all_eq_true] at ha
      have := List.isEmpty_iff.mp (ha lk (List.getElem?_mem hk))
      rw [this]
      rfl
    · rw [if_neg ha] at h
      exact absurd h (by simp)
  | cons i sched ih =>
    intro ls out k lk h hk hlk hother
    cases hg : ls[i]? with
    | none =>
      rw [scheduleRun_cons_stuck ls i sched (Or.inl hg)] at h
      exact absurd h (by simp)
    | some l =>
      cases l with
      | nil =>
        rw [scheduleRun_cons_stuck ls i sched (Or.inr hg)] at h
        exact absurd h (by simp)
      | cons x rest =>
        rw [scheduleRun_cons_some ls i sched x rest hg] at h
        cases hr : scheduleRun (ls.set i rest) sched with
        | none => rw [hr] at h; exact absurd h (by simp)
        | some out' =>
          rw [hr] at h
          simp only [Option.map_some'] at h
          cases h
          by_cases hik : i = k
          · subst hik
            rw [hk] at hg
            cases hg
            have hpx : p x = true := hlk x (List.mem_cons_self x rest)
            rw [List.filter_cons, if_pos hpx]
            have hrec := ih (ls.set i rest) out' i rest hr
              (List.getElem?_set_self (getElem?_some_lt hk))
              (fun y hy => hlk y (List.mem_cons_of_mem x hy))
              (fun j lj hj hlj => hother j lj hj
                (by rwa [List.getElem?_set_ne (Ne.symm hj)] at hlj))
            rw [hrec]
          · have hpx : p x = false :=
              hother i (x :: rest) hik hg x (List.mem_cons_self x rest)
            rw [List.filter_cons, if_neg (by simp [hpx])]
            refine ih (ls.set i rest) out' k lk hr
              (by rwa [List.getElem?_set_ne hik]) hlk ?_
            intro j lj hj hlj
            by_cases hji : j = i
            · subst hji
              rw [List.getElem?_set_self (getElem?_some_lt hg)] at hlj
              cases hlj
              intro y hy
              exact hother j (x :: rest) hik hg y (List.mem_cons_of_mem x hy)
            · rw [List.getElem?_set_ne (Ne.symm hji)] at hlj
              exact hother j lj hj hlj
theorem scheduleRun_shift {α : Type} :
    ∀ (sched : List Nat) (ls : List (List α)),
      scheduleRun (([] : List α) :: ls) (sched.map (· + 1)) = scheduleRun ls sched := by
  intro sched
  induction sched with
  | nil =>
    intro ls
    cases hb : ls.all List.isEmpty <;> simp [scheduleRun, hb]
  | cons i sched ih =>
    intro ls
    simp only [List.map_cons, scheduleRun, List.getElem?_cons_succ]
    cases hg : ls[i]? with
    | none => rfl
    | some l =>
      cases l with
      | nil => rfl
      | cons x rest =>
        simp only [List.set_cons_succ]
        rw [ih (ls.set i rest)]

theorem scheduleRun_exists_inorder {α : Type} :
    ∀ ls : List (List α), ∃ sched, scheduleRun ls sched = some ls.join := by
  intro ls
  induction ls with
  | nil => exact ⟨[], by simp [scheduleRun]⟩
  | cons l t ih =>
    induction l with
    | nil =>
      obtain ⟨sched, hs⟩ := ih
      refine ⟨sched.map (· + 1), ?_⟩
      rw [scheduleRun_shift, hs]
      simp
    | cons x xs ihx =>
      obtain ⟨sched, hs⟩ := ihx
      refine ⟨0 :: sched, ?_⟩
      simp only [scheduleRun, List.getElem?_cons_zero, List.set_cons_zero, hs,
        Option.map_some']
      simp

theorem locationItems_id (pub : String) (loc : GbpLocation)
    (harvest : String → Except String (List Review))
    (mint : String → Review → Except String String) :
    ∀ it ∈ locationItems pub loc harvest mint, it.locationId = locIdOf loc := by
  intro it hit
  by_cases h : locIdOf loc = ""
  · simp only [locationItems, if_pos h] at hit
    simp at hit
  · cases hh : harvest (locIdOf loc) with
    | error e =>
      simp only [locationItems, if_neg h, hh] at hit
      simp at hit
    | ok reviews =>
      simp only [locationItems, if_neg h, hh, processLocationReviews, List.mem_map] at hit
      obtain ⟨r, _, rfl⟩ := hit
      rfl

/-- Two locations, the first contributing two records and the second one
record; used to exhibit an interleaved completion order. -/
def exLocA : GbpLocation := ⟨"accounts/a/locations/1", "S1", "Alpha"⟩

/-- The second example location. -/
def exLocB : GbpLocation := ⟨"accounts/a/locations/2", "S2", "Beta"⟩

/-- Harvest oracle for the ordering example. -/
def exHarvest : String → Except String (List Review)
  | "1" => .ok [exampleReview "accounts/a/locations/1/reviews/x1" 150,
                exampleReview "accounts/a/locations/1/reviews/x2" 160]
  | "2" => .ok [exampleReview "accounts/a/locations/2/reviews/y1" 170]
  | _ => .ok []

/-- Prefill oracle for the ordering example: the prefill service is down, so
every record carries a `prefillError` (and is still retained). -/
def exMint : String → Review → Except String String := fun _ _ => .error "prefill down"

set_option maxRecDepth 20000 in
/-- C9 counterexample: with two locations and the default concurrency (≥ 2),
both workers are in flight at once; the schedule in which location 2's worker
performs its push before location 1's worker pushes either of its two records
is valid, and the resulting shared-`items` order differs from the
listing-order concatenation — so the delivered record order does *not* always
match the order the locations were listed. -/
theorem runPipeline_order_counterexample :
    (runPipeline "https://app" [exLocA, exLocB] exHarvest exMint [1, 0, 0]).isSome = true ∧
    runPipeline "https://app" [exLocA, exLocB] exHarvest exMint [1, 0, 0] ≠
      some (([exLocA, exLocB].map
        (fun loc => locationItems "https://app" loc exHarvest exMint)).join) := by
  constructor
  · decide
  · decide

/-- C9 (amended): for every valid schedule of the concurrent workers, the
delivered record list is an order-preserving interleaving of the per-location
item lists: it has exactly the items of every location, and (for a location
whose id differs from all others') the subsequence of the output carrying
that location's id is exactly that location's item list, in source feed order
(not re-sorted).  The listing-order concatenation is one achievable output —
workers happening to complete in listing order — but with concurrency ≥ 2
other interleavings are schedulable, so the delivered order need not match
the listing order (see the counterexample). -/
theorem runPipeline_order_spec (pub : String) (locs : List GbpLocation)
    (harvest : String → Except String (List Review))
    (mint : String → Review → Except String String)
    (sched : List Nat) (out : List RunItem)
    (hrun : runPipeline pub locs harvest mint sched = some out) :
    out.length = (locs.map (fun loc => (locationItems pub loc harvest mint).length)).sum ∧
    (∀ (k : Nat) (loc : GbpLocation), locs[k]? = some loc →
      (∀ (j : Nat) (loc' : GbpLocation), j ≠ k → locs[j]? = some loc' →
        locIdOf loc' ≠ locIdOf loc) →
      out.filter (fun it => it.locationId == locIdOf loc) =
        locationItems pub loc harvest mint) ∧
    (∃ sched', runPipeline pub locs harvest mint sched' =
      some ((locs.map (fun loc => locationItems pub loc harvest mint)).join)) := by
  unfold runPipeline at hrun
  refine ⟨?_, ?_, ?_⟩
  · have h := scheduleRun_length _ _ _ hrun
    rw [h, List.map_map]
    rfl
  · intro k loc hk hdist
    apply scheduleRun_filter _ _ _ _ _ _ hrun
    · rw [List.getElem?_map, hk]
      rfl
    · intro x hx
      have hid := locationItems_id pub loc harvest mint x hx
      simp [hid]
    · intro j lj hj hlj
      rw [List.getElem?_map] at hlj
      cases hjl : locs[j]? with
      | none => rw [hjl] at hlj; simp at hlj
      | some loc' =>
        rw [hjl] at hlj
        simp only [Option.map_some'] at hlj
        cases hlj
        intro y hy
        have hid := locationItems_id pub loc' harvest mint y hy
        have hne := hdist j loc' hj hjl
        rw [hid]
        exact beq_eq_false_iff_ne.mpr hne
  · obtain ⟨sched', hs⟩ :=
      scheduleRun_exists_inorder (locs.map (fun loc => locationItems pub loc harvest mint))
    exact ⟨sched', hs⟩

set_option maxRecDepth 20000 in
/-- Witness for the amended C9 at the two-location example and the
interleaving schedule: the output of the interleaved run still projects, per
location, to exactly that location's records in feed order. -/
theorem runPipeline_order_spec_witness :
    ∃ out, runPipeline "https://app" [exLocA, exLocB] exHarvest exMint [1, 0, 0] = some out ∧
      out.filter (fun it => it.locationId == locIdOf exLocA) =
        locationItems "https://app" exLocA exHarvest exMint := by
  cases hx : runPipeline "https://app" [exLocA, exLocB] exHarvest exMint [1, 0, 0] with
  | none => exact absurd hx (by decide)
  | some out =>
    refine ⟨out, rfl, ?_⟩
    apply (runPipeline_order_spec "https://app" [exLocA, exLocB] exHarvest exMint
      [1, 0, 0] out hx).2.1 0 exLocA (by decide)
    intro j loc' hj hjl
    have hlt := getElem?_some_lt hjl
    simp only [List.length_cons, List.length_nil] at hlt
    interval_cases j
    · exact absurd rfl hj
    · simp only [List.getElem?_cons_succ, List.getElem?_cons_zero] at hjl
      cases hjl
      decide

/-- C8: one location's harvest failure never aborts the run and stays scoped
to that location.  For every valid run: a location whose review harvest threw
(retries exhausted) contributes zero records and its error is reported
(`locationHarvestError`); and every location whose harvest succeeded — with
an id distinct from the others' — still delivers its full record set, one
output record per harvested review, in the final output. -/
theorem runPipeline_failure_isolation (pub : String) (locs : List GbpLocation)
    (harvest : String → Except String (List Review))
    (mint : String → Review → Except String String)
    (sched : List Nat) (out : List RunItem)
    (hrun : runPipeline pub locs harvest mint sched = some out) :
    (∀ (loc : GbpLocation) (e : String), locIdOf loc ≠ "" →
      harvest (locIdOf loc) = .error e →
      locationItems pub loc harvest mint = [] ∧
      locationHarvestError loc harvest = some e) ∧
    (∀ (k : Nat) (loc : GbpLocation) (reviews : List Review), locs[k]? = some loc →
      locIdOf loc ≠ "" → harvest (locIdOf loc) = .ok reviews →
      (∀ (j : Nat) (loc' : GbpLocation), j ≠ k → locs[j]? = some loc' →
        locIdOf loc' ≠ locIdOf loc) →
      out.filter (fun it => it.locationId == locIdOf loc) =
        processLocationReviews pub (locIdOf loc) (jsTrim loc.storeCode) (jsTrim loc.title)
          (mint (locIdOf loc)) reviews ∧
      (out.filter (fun it => it.locationId == locIdOf loc)).length = reviews.length) := by
  unfold runPipeline at hrun
  constructor
  · intro loc e hne herr
    constructor
    · simp only [locationItems, if_neg hne, herr]
    · simp only [locationHarvestError, if_neg hne, herr]
  · intro k loc reviews hk hne hok hdist
    have hfilter : out.filter (fun it => it.locationId == locIdOf loc) =
        locationItems pub loc harvest mint := by
      apply scheduleRun_filter _ _ _ _ _ _ hrun
      · rw [List.getElem?_map, hk]
        rfl
      · intro x hx
        simp [locationItems_id pub loc harvest mint x hx]
      · intro j lj hj hlj
        rw [List.getElem?_map] at hlj
        cases hjl : locs[j]? with
        | none => rw [hjl] at hlj; simp at hlj
        | some loc' =>
          rw [hjl] at hlj
          simp only [Option.map_some'] at hlj
          cases hlj
          intro y hy
          rw [locationItems_id pub loc' harvest mint y hy]
          exact beq_eq_false_iff_ne.mpr (hdist j loc' hj hjl)
    have hitems : locationItems pub loc harvest mint =
        processLocationReviews pub (locIdOf loc) (jsTrim loc.storeCode) (jsTrim loc.title)
          (mint (locIdOf loc)) reviews := by
      simp only [locationItems, if_neg hne, hok]
    refine ⟨by rw [hfilter, hitems], ?_⟩
    rw [hfilter, hitems]
    simp [processLocationReviews]

/-- A third example location. -/
def exLocC : GbpLocation := ⟨"accounts/a/locations/3", "S3", "Gamma"⟩

/-- Harvest oracle where location 2's harvest exhausts its retries and
throws, while locations 1 and 3 succeed. -/
def exHarvestFail : String → Except String (List Review)
  | "1" => .ok [exampleReview "accounts/a/locations/1/reviews/x1" 150,
                exampleReview "accounts/a/locations/1/reviews/x2" 160]
  | "2" => .error "HTTP 500 Internal Server Error: transient"
  | "3" => .ok [exampleReview "accounts/a/locations/3/reviews/z1" 170]
  | _ => .ok []

set_option maxRecDepth 20000 in
/-- Witness for C8: location B's harvest throws; B contributes zero records
and its error is reported, while locations A and C still deliver their full
record sets (2 and 1 records). -/
theorem runPipeline_failure_isolation_witness :
    ∃ out, runPipeline "https://app" [exLocA, exLocB, exLocC] exHarvestFail exMint
        [0, 0, 2] = some out ∧
      locationItems "https://app" exLocB exHarvestFail exMint = [] ∧
      locationHarvestError exLocB exHarvestFail =
        some "HTTP 500 Internal Server Error: transient" ∧
      (out.filter (fun it => it.locationId == locIdOf exLocA)).length = 2 ∧
      (out.filter (fun it => it.locationId == locIdOf exLocC)).length = 1 := by
  cases hx : runPipeline "https://app" [exLocA, exLocB, exLocC] exHarvestFail exMint
      [0, 0, 2] with
  | none => exact absurd hx (by decide)
  | some out =>
    have h := runPipeline_failure_isolation "https://app" [exLocA, exLocB, exLocC]
      exHarvestFail exMint [0, 0, 2] out hx
    obtain ⟨hempty, herr⟩ := h.1 exLocB "HTTP 500 Internal Server Error: transient"
      (by decide) rfl
    have hdistA : ∀ (j : Nat) (loc' : GbpLocation), j ≠ 0 →
        [exLocA, exLocB, exLocC][j]? = some loc' → locIdOf loc' ≠ locIdOf exLocA := by
      intro j loc' hj hjl
      have hlt := getElem?_some_lt hjl
      simp only [List.length_cons, List.length_nil] at hlt
      interval_cases j
      · exact absurd rfl hj
      · simp only [List.getElem?_cons_succ, List.getElem?_cons_zero] at hjl
        cases hjl
        decide
      · simp only [List.getElem?_cons_succ, List.getElem?_cons_zero] at hjl
        cases hjl
        decide
    have hdistC : ∀ (j : Nat) (loc' : GbpLocation), j ≠ 2 →
        [exLocA, exLocB, exLocC][j]? = some loc' → locIdOf loc' ≠ locIdOf exLocC := by
      intro j loc' hj hjl
      have hlt := getElem?_some_lt hjl
      simp only [List.length_cons, List.length_nil] at hlt
      interval_cases j
      · simp only [List.getElem?_cons_zero] at hjl
        cases hjl
        decide
      · simp only [List.getElem?_cons_succ, List.getElem?_cons_zero] at hjl
        cases hjl
        decide
      · exact absurd rfl hj
    have hA := h.2 0 exLocA
      [exampleReview "accounts/a/locations/1/reviews/x1" 150,
       exampleReview "accounts/a/locations/1/reviews/x2" 160]
      rfl (by decide) rfl hdistA
    have hC := h.2 2 exLocC
      [exampleReview "accounts/a/locations/3/reviews/z1" 170]
      rfl (by decide) rfl hdistC
    refine ⟨out, rfl, hempty, herr, ?_, ?_⟩
    · rw [hA.2]
      rfl
    · rw [hC.2]
      rfl

/-- C7: reply-reference minting is fail-soft.  `createPrefillRid` fails with
an error — rethrown transport failure (retries exhausted), a `Prefill error`
for any non-2xx response, a `Prefill response missing rid` for a malformed
body or a missing/empty identifier — and in every such case the per-review
loop still builds and pushes the record: the reply reference and smart-reply
URL stay null while `prefillError` is populated with a non-empty message; no
review is dropped (one output record per harvested review, for any mint
outcome). -/
theorem prefill_fail_soft :
    (∀ (ridOf : String → Option String) (e : String),
      createPrefillRid (.error e) ridOf = .error e) ∧
    (∀ (ridOf : String → Option String) (res : HttpResponse), resOk res = false →
      createPrefillRid (.ok res) ridOf =
        .error ("Prefill error " ++ toString res.status ++ ": " ++ res.body)) ∧
    (∀ (ridOf : String → Option String) (res : HttpResponse), resOk res = true →
      (ridOf res.body = none ∨ ridOf res.body = some "") →
      createPrefillRid (.ok res) ridOf =
        .error ("Prefill response missing rid: " ++ res.body)) ∧
    (∀ (pub locId sc tt : String) (r : Review) (e : String),
      (buildRunItem pub locId sc tt r (.error e)).prefillRid = none ∧
      (buildRunItem pub locId sc tt r (.error e)).smartReplyUrl = none ∧
      ∃ msg, msg ≠ "" ∧
        (buildRunItem pub locId sc tt r (.error e)).prefillError = some msg) ∧
    (∀ (pub locId sc tt : String) (mint : Review → Except String String)
       (reviews : List Review),
      (processLocationReviews pub locId sc tt mint reviews).length = reviews.length) := by
  refine ⟨fun _ _ => rfl, ?_, ?_, ?_, ?_⟩
  · intro ridOf res hok
    simp only [createPrefillRid, hok, Bool.false_eq_true, if_false]
  · intro ridOf res hok hrid
    rcases hrid with hrid | hrid <;>
      simp only [createPrefillRid, hok, if_true, hrid, if_pos rfl]
  · intro pub locId sc tt r e
    refine ⟨rfl, rfl, ?_⟩
    by_cases he : e = ""
    · subst he
      exact ⟨"Error", by decide, rfl⟩
    · refine ⟨e, he, ?_⟩
      simp only [buildRunItem, if_neg he]
  · intro pub locId sc tt mint reviews
    simp [processLocationReviews]

/-- Witness for C7: a concrete failing mint — the record is built with a null
reply reference and a populated error, and the location still yields one
record per review. -/
theorem prefill_fail_soft_witness :
    createPrefillRid (.error "ECONNRESET") (fun _ => none) = .error "ECONNRESET" ∧
    (buildRunItem "https://app" "1" "S1" "Alpha"
      (exampleReview "accounts/a/locations/1/reviews/r" 150)
      (.error "Prefill error 403: forbidden")).prefillRid = none ∧
    (∃ msg, msg ≠ "" ∧ (buildRunItem "https://app" "1" "S1" "Alpha"
      (exampleReview "accounts/a/locations/1/reviews/r" 150)
      (.error "Prefill error 403: forbidden")).prefillError = some msg) ∧
    (processLocationReviews "https://app" "1" "S1" "Alpha"
      (fun _ => .error "down")
      [exampleReview "accounts/a/locations/1/reviews/r" 150]).length = 1 := by
  refine ⟨prefill_fail_soft.1 (fun _ => none) "ECONNRESET",
    (prefill_fail_soft.2.2.2.1 "https://app" "1" "S1" "Alpha"
      (exampleReview "accounts/a/locations/1/reviews/r" 150)
      "Prefill error 403: forbidden").1,
    (prefill_fail_soft.2.2.2.1 "https://app" "1" "S1" "Alpha"
      (exampleReview "accounts/a/locations/1/reviews/r" 150)
      "Prefill error 403: forbidden").2.2, ?_⟩
  rw [prefill_fail_soft.2.2.2.2 "https://app" "1" "S1" "Alpha"
    (fun _ => .error "down")
    [exampleReview "accounts/a/locations/1/reviews/r" 150]]
  rfl

/-- C4: every review record in the run's output has a present creation
timestamp whose instant — unchanged by the conversion to the Berlin civil
timezone — lies within the inclusive window `[startMs, endMs]`: first at the
harvester level (every collected review has `createTime` present and in the
window; reviews without a creation timestamp are never collected), then
through the whole pipeline (every output record's creation instant is in the
window), for any schedule and any mint outcomes. -/
theorem output_in_window (startMs endMs : Int) :
    (∀ (pages : List ReviewsPage) (r : Review),
      r ∈ (listReviewsForLocation pages startMs endMs).1 →
      ∃ ct, r.createTime = some ct ∧ startMs ≤ ct ∧ ct ≤ endMs) ∧
    (∀ (pub : String) (locs : List GbpLocation) (feeds : String → List ReviewsPage)
       (mint : String → Review → Except String String) (sched : List Nat)
       (out : List RunItem),
      runPipeline pub locs
        (fun lid => .ok (listReviewsForLocation (feeds lid) startMs endMs).1) mint sched
        = some out →
      ∀ it ∈ out, startMs ≤ it.reviewedAtMs ∧ it.reviewedAtMs ≤ endMs) := by
  constructor
  · intro pages r h
    exact harvestLoop_mem_window startMs endMs pages 0 r h
  · intro pub locs feeds mint sched out hrun it hit
    unfold runPipeline at hrun
    obtain ⟨l, hl, hitl⟩ := scheduleRun_mem _ _ _ _ hrun hit
    simp only [List.mem_map] at hl
    obtain ⟨loc, _, rfl⟩ := hl
    by_cases hid : locIdOf loc = ""
    · simp only [locationItems, if_pos hid] at hitl
      simp at hitl
    · simp only [locationItems, if_neg hid, processLocationReviews, List.mem_map] at hitl
      obtain ⟨r, hr, rfl⟩ := hitl
      obtain ⟨ct, hct, h1, h2⟩ :=
        harvestLoop_mem_window startMs endMs (feeds (locIdOf loc)) 0 r hr
      simp only [buildRunItem]
      rw [hct]
      exact ⟨h1, h2⟩

/-- Witness for C4: with the synthetic feed and window `[100, 200]`, the run
output's records all carry creation instants inside the window. -/
theorem output_in_window_witness :
    ∃ out, runPipeline "https://app" [exLocA]
        (fun lid => .ok (listReviewsForLocation
          (if lid = "1" then examplePages else []) 100 200).1)
        exMint [0, 0] = some out ∧
      ∀ it ∈ out, 100 ≤ it.reviewedAtMs ∧ it.reviewedAtMs ≤ 200 := by
  cases hx : runPipeline "https://app" [exLocA]
      (fun lid => .ok (listReviewsForLocation
        (if lid = "1" then examplePages else []) 100 200).1)
      exMint [0, 0] with
  | none => exact absurd hx (by decide)
  | some out =>
    refine ⟨out, rfl, ?_⟩
    exact (output_in_window 100 200).2 "https://app" [exLocA]
      (fun lid => if lid = "1" then examplePages else []) exMint [0, 0] out hx

end GbpReviews
